import Mathlib

/-!
Shallow embedding of `src/row_block.h` (dmlc-core `RowBlockContainer` /
`UnitBlockContainer`), used to check the natural-language specification.

Modelling conventions:
* C++ `std::vector<T>` becomes `List Nat`.  Numeric payloads (`real_t`
  labels/weights/values) are moved by the container opaquely (`push_back` /
  `memcpy` only), so they are modelled by their bit patterns as `Nat`.
* `IndexType` is modelled by `Nat` together with an explicit bound `IMax`
  (the value of `std::numeric_limits<IndexType>::max()`); the `CHECK_LE`
  narrowing guards of the source become explicit comparisons against `IMax`.
* A `CHECK` failure aborts the C++ process; mutations performed before the
  failing check survive on the object.  Each mutating operation therefore
  returns the (possibly partially mutated) container together with
  `Option PushError`; processing stops at the first error.
* A raw out-of-range `std::vector` write or read through `operator[]` is
  undefined behaviour in the source; it is modelled as the `oob` error.
* `size_t` subtraction in `batch.offset[batch.size] - batch.offset[0]` is
  modelled by truncated `Nat` subtraction; all theorems about well-formed
  batches assume monotone batch offsets, where the two agree.
-/

namespace RowBlockModel

/-- Errors of the append paths: `overflow` models a failing `CHECK_LE`
narrowing guard, `sizeMismatch` the failing `CHECK_EQ(batch.size, size)` of
`UnitBlockContainer::Push(UnitBlock, size)`, and `oob` an out-of-range
vector access (undefined behaviour in the C++ source). -/
inductive PushError where
  | overflow
  | sizeMismatch
  | oob
deriving DecidableEq

/-- Model of `UnitBlockContainer<IndexType, DType>` (row_block.h lines 26-106). -/
structure UnitBlockContainer where
  offset : List Nat
  index : List Nat
  value : List Nat
  max_index : Nat
deriving DecidableEq

/-- One row fragment for a unit container: `UnitData<I, D>` (dmlc/data.h,
not under src/; shape taken from how `UnitBlockContainer::Push(UnitData)`
reads it: `index[i]` and optionally `value[i]` for `i < length`). -/
structure UnitData where
  index : List Nat
  value : Option (List Nat)
deriving DecidableEq

/-- Model of `UnitBlock<I, D>`: a borrowed CSR view with explicit row count
(dmlc/data.h, not under src/; shape per spec section 6 and the reads
performed by `UnitBlockContainer::Push(UnitBlock, size)`). -/
structure UnitBlock where
  size : Nat
  offset : List Nat
  index : List Nat
  value : Option (List Nat)
deriving DecidableEq

/-- Model of `Row<I, DType>` as read by `RowBlockContainer::Push(Row)`; per spec
section 6 the row descriptor supplies `label_width` labels, one weight and
one qid, optional field ids, indices, optional values and extra fragments. -/
structure Row where
  label_width : Nat
  label : List Nat
  weight : Nat
  qid : Nat
  field : Option (List Nat)
  index : List Nat
  value : Option (List Nat)
  extra : List UnitData
deriving DecidableEq

/-- Model of `RowBlock<IndexType, DType>`: the borrowed block view
(dmlc/data.h, not under src/; shape per spec section 6 and the reads of
`RowBlockContainer::Push(RowBlock)` and the fields set by `GetBlock`). -/
structure RowBlock where
  size : Nat
  label_width : Nat
  offset : List Nat
  label : List Nat
  weight : Option (List Nat)
  qid : Option (List Nat)
  field : Option (List Nat)
  index : List Nat
  value : Option (List Nat)
  extra : List UnitBlock
deriving DecidableEq

/-- Model of `RowBlockContainer<IndexType, DType>` (row_block.h lines 126-286). -/
structure RowBlockContainer where
  offset : List Nat
  label_width : Nat
  label : List Nat
  weight : List Nat
  qid : List Nat
  field : List Nat
  index : List Nat
  value : List Nat
  max_field : Nat
  max_index : Nat
  extra : List UnitBlockContainer
deriving DecidableEq

/-- Model of `Size()` (line 180): `offset.size() - 1`. -/
def RowBlockContainer.Size (c : RowBlockContainer) : Nat := c.offset.length - 1

/-- Row count of a unit container, `offset.size() - 1`. -/
def UnitBlockContainer.Size (u : UnitBlockContainer) : Nat := u.offset.length - 1

/-- Model of `UnitBlockContainer::Clear` (lines 41-45). -/
def UnitBlockContainer.clear (_u : UnitBlockContainer) : UnitBlockContainer :=
  { offset := [0], index := [], value := [], max_index := 0 }

/-- Model of `RowBlockContainer::Clear` (lines 171-178): resets every primary array
and both maxima, recursively clears the extras, leaves `label_width`. -/
def RowBlockContainer.clear (c : RowBlockContainer) : RowBlockContainer :=
  { c with offset := [0], label := [], field := [], index := [], value := [],
           weight := [], qid := [], max_field := 0, max_index := 0,
           extra := c.extra.map UnitBlockContainer.clear }

/-- A default-constructed container: the constructor (line 154) calls
`Clear()`; `label_width` has in-class initializer `1`, `extra` is empty. -/
def freshContainer : RowBlockContainer :=
  { offset := [0], label_width := 1, label := [], weight := [], qid := [],
    field := [], index := [], value := [], max_field := 0, max_index := 0,
    extra := [] }

/-- Model of `std::vector::resize(n)`: truncate or pad with value-initialized `0`. -/
def resizeTo (l : List Nat) (n : Nat) : List Nat :=
  l.take n ++ List.replicate (n - l.length) 0

/-- Overwrite `xs.length` consecutive entries of `l` starting at `p`. -/
def overwriteAt (l : List Nat) (p : Nat) (xs : List Nat) : List Nat :=
  l.take p ++ xs ++ l.drop (p + xs.length)

/-- The narrowing append loop shared by `UnitBlockContainer::Push(UnitData)`
(lines 61-67) and the field/index loops of `RowBlockContainer::Push(Row)`
(lines 207-222): for each entry, `CHECK_LE(entry, max)` then `push_back`
and update the running maximum. -/
def pushList (IMax : Nat) (dst : List Nat) (mx : Nat) :
    List Nat → (List Nat × Nat) × Option PushError
  | [] => ((dst, mx), none)
  | x :: rest =>
    if x ≤ IMax then pushList IMax (dst ++ [x]) (Nat.max mx x) rest
    else ((dst, mx), some PushError.overflow)

/-- The narrowing bulk-write loop of the block pushes (lines 87-93, 254-260,
264-270): for each entry, `CHECK_LE(entry, max)`, then write it through a
raw pointer at position `pos` of the resized array and update the maximum.
A write past the end of the array is undefined behaviour, modelled `oob`. -/
def writeSeq (IMax : Nat) (arr : List Nat) (pos mx : Nat) :
    List Nat → (List Nat × Nat) × Option PushError
  | [] => ((arr, mx), none)
  | x :: rest =>
    if x ≤ IMax then
      if pos < arr.length then
        writeSeq IMax (arr.set pos x) (pos + 1) (Nat.max mx x) rest
      else ((arr, mx), some PushError.oob)
    else ((arr, mx), some PushError.overflow)

/-- Model of `UnitBlockContainer::Push(UnitData)` (lines 60-74). -/
def UnitBlockContainer.pushRow (IMax : Nat) (u : UnitBlockContainer)
    (d : UnitData) : UnitBlockContainer × Option PushError :=
  match pushList IMax u.index u.max_index d.index with
  | ((i2, m2), some e) => ({ u with index := i2, max_index := m2 }, some e)
  | ((i2, m2), none) =>
    let u2 : UnitBlockContainer := { u with index := i2, max_index := m2 }
    let u3 := { u2 with value := u2.value ++
      (match d.value with | some vs => vs.take d.index.length | none => []) }
    ({ u3 with offset := u3.offset ++ [u3.index.length] }, none)

/-- The `ndata` of a block push: `batch.offset[batch.size] - batch.offset[0]`
(lines 84, 250). -/
def ndataOfU (b : UnitBlock) : Nat := b.offset.getD b.size 0 - b.offset.getD 0 0

/-- Model of `UnitBlockContainer::Push(UnitBlock, size)` (lines 81-105):
`CHECK_EQ(batch.size, size)`, bulk-copy indices with narrowing at position
`offset.back()` of the resized index array, raw-copy values when supplied,
then recompute appended offsets from `shift = offset[size]`. -/
def UnitBlockContainer.pushBlock (IMax : Nat) (u : UnitBlockContainer)
    (b : UnitBlock) (sz : Nat) : UnitBlockContainer × Option PushError :=
  if b.size ≠ sz then (u, some PushError.sizeMismatch)
  else
    let ndata := ndataOfU b
    match writeSeq IMax (resizeTo u.index (u.index.length + ndata))
        (u.offset.getLastD 0) u.max_index (b.index.take ndata) with
    | ((i2, m2), some e) => ({ u with index := i2, max_index := m2 }, some e)
    | ((i2, m2), none) =>
      let u2 : UnitBlockContainer := { u with index := i2, max_index := m2 }
      let u3 := { u2 with value := u2.value ++
        (match b.value with | some vs => vs.take ndata | none => []) }
      if sz < u3.offset.length then
        let shift := u3.offset.getD sz 0
        ({ u3 with offset :=
            (overwriteAt (resizeTo u3.offset (u3.offset.length + b.size)) (sz + 1)
              ((List.range b.size).map fun i =>
                (shift + b.offset.getD (i + 1) 0) - b.offset.getD 0 0)) }, none)
      else (u3, some PushError.oob)

/-- The extras loop of `RowBlockContainer::Push(Row)` (lines 228-230):
`extra[i].Push(row.extra[i])` for every `i < row.extra.size()`; accessing a
channel the container does not have is out of range. -/
def pushRowExtras (IMax : Nat) : List UnitBlockContainer → List UnitData →
    List UnitBlockContainer × Option PushError
  | cs, [] => (cs, none)
  | [], _ :: _ => ([], some PushError.oob)
  | u :: cs, d :: ds =>
    match UnitBlockContainer.pushRow IMax u d with
    | (u2, some e) => (u2 :: cs, some e)
    | (u2, none) =>
      let r := pushRowExtras IMax cs ds
      (u2 :: r.1, r.2)

/-- The extras loop of `RowBlockContainer::Push(RowBlock)` (lines 282-284):
`extra[i].Push(batch.extra[i], size)` for every `i < batch.extra.size()`. -/
def pushBlockExtras (IMax sz : Nat) : List UnitBlockContainer → List UnitBlock →
    List UnitBlockContainer × Option PushError
  | cs, [] => (cs, none)
  | [], _ :: _ => ([], some PushError.oob)
  | u :: cs, b :: bs =>
    match UnitBlockContainer.pushBlock IMax u b sz with
    | (u2, some e) => (u2 :: cs, some e)
    | (u2, none) =>
      let r := pushBlockExtras IMax sz cs bs
      (u2 :: r.1, r.2)

/-- Model of `RowBlockContainer::Push(Row)` (lines 202-232), stage by stage in source
order: labels, weight, qid, optional field loop, index loop, optional value
loop, extras, final `offset.push_back(index.size())`. -/
def RowBlockContainer.pushRow (IMax : Nat) (c : RowBlockContainer) (r : Row) :
    RowBlockContainer × Option PushError :=
  let len := r.index.length
  let c1 := { c with label := c.label ++ r.label.take r.label_width,
                     weight := c.weight ++ [r.weight],
                     qid := c.qid ++ [r.qid] }
  match (match r.field with
         | some fs => pushList IMax c1.field c1.max_field (fs.take len)
         | none => ((c1.field, c1.max_field), none)) with
  | ((f2, mf2), some e) => ({ c1 with field := f2, max_field := mf2 }, some e)
  | ((f2, mf2), none) =>
    let c2 := { c1 with field := f2, max_field := mf2 }
    match pushList IMax c2.index c2.max_index r.index with
    | ((i2, mi2), some e) => ({ c2 with index := i2, max_index := mi2 }, some e)
    | ((i2, mi2), none) =>
      let c3 := { c2 with index := i2, max_index := mi2 }
      let c4 := { c3 with value := c3.value ++
        (match r.value with | some vs => vs.take len | none => []) }
      match pushRowExtras IMax c4.extra r.extra with
      | (ex2, some e) => ({ c4 with extra := ex2 }, some e)
      | (ex2, none) =>
        let c5 := { c4 with extra := ex2 }
        ({ c5 with offset := c5.offset ++ [c5.index.length] }, none)

/-- The `ndata` of the primary block push (line 250). -/
def ndataOf (b : RowBlock) : Nat := b.offset.getD b.size 0 - b.offset.getD 0 0

/-- The primary-array stages of `RowBlockContainer::Push(RowBlock)` (lines
240-281), stage by stage in source order, before the extras loop.  Note
line 240: the prior size `sz` is `label.size()`, not `Size()`.
`shift = offset[size]` (line 276) is an out-of-range read when
`label.size() >= offset.size()`; the subsequent `ohead` writes land at
positions `size+1 .. size+batch.size` of the resized offset array. -/
def RowBlockContainer.pushBlockMain (IMax : Nat) (c : RowBlockContainer)
    (b : RowBlock) : RowBlockContainer × Option PushError :=
  let sz := c.label.length
  let c1 := { c with label := c.label ++ b.label.take (b.size * c.label_width) }
  let c2 := { c1 with weight := c1.weight ++
    (match b.weight with | some ws => ws.take b.size | none => []) }
  let c3 := { c2 with qid := c2.qid ++
    (match b.qid with | some qs => qs.take b.size | none => []) }
  let ndata := ndataOf b
  match (match b.field with
         | some fs => writeSeq IMax (resizeTo c3.field (c3.field.length + ndata))
             (c3.offset.getLastD 0) c3.max_field (fs.take ndata)
         | none => ((c3.field, c3.max_field), none)) with
  | ((f2, mf2), some e) => ({ c3 with field := f2, max_field := mf2 }, some e)
  | ((f2, mf2), none) =>
    let c4 := { c3 with field := f2, max_field := mf2 }
    match writeSeq IMax (resizeTo c4.index (c4.index.length + ndata))
        (c4.offset.getLastD 0) c4.max_index (b.index.take ndata) with
    | ((i2, mi2), some e) => ({ c4 with index := i2, max_index := mi2 }, some e)
    | ((i2, mi2), none) =>
      let c5 := { c4 with index := i2, max_index := mi2 }
      let c6 := { c5 with value := c5.value ++
        (match b.value with | some vs => vs.take ndata | none => []) }
      if sz < c6.offset.length then
        let shift := c6.offset.getD sz 0
        ({ c6 with offset :=
            (overwriteAt (resizeTo c6.offset (c6.offset.length + b.size)) (sz + 1)
              ((List.range b.size).map fun i =>
                (shift + b.offset.getD (i + 1) 0) - b.offset.getD 0 0)) }, none)
      else (c6, some PushError.oob)

/-- Model of `RowBlockContainer::Push(RowBlock)` (lines 239-285): the primary-array
stages, then the extras loop `extra[i].Push(batch.extra[i], size)` (lines
282-284) with `size = label.size()` taken before any mutation. -/
def RowBlockContainer.pushBlock (IMax : Nat) (c : RowBlockContainer)
    (b : RowBlock) : RowBlockContainer × Option PushError :=
  match RowBlockContainer.pushBlockMain IMax c b with
  | (c7, some e) => (c7, some e)
  | (c7, none) =>
    match pushBlockExtras IMax c.label.length c7.extra b.extra with
    | (ex2, e) => ({ c7 with extra := ex2 }, e)

/-- Model of `BeginPtr(vec)`: a null pointer for an empty vector (dmlc/base.h, not under
src/): a borrowed array slot of the view is absent exactly when the backing
vector is empty. -/
def optList (l : List Nat) : Option (List Nat) :=
  if l = [] then none else some l

/-- Traverse a list under `Option`, failing when any element fails. -/
def mapOpt (f : α → Option β) : List α → Option (List β)
  | [] => some []
  | a :: as =>
    match f a, mapOpt f as with
    | some b, some bs => some (b :: bs)
    | _, _ => none

/-- Model of `UnitBlockContainer::GetBlock` (lines 108-120): checks
`offset.back() == index.size()` and `offset.back() == value.size() ||
value.size() == 0`, then returns the borrowed view. -/
def UnitBlockContainer.getBlock (u : UnitBlockContainer) : Option UnitBlock :=
  if u.offset.getLastD 0 = u.index.length then
    if u.offset.getLastD 0 = u.value.length ∨ u.value.length = 0 then
      some { size := u.offset.length - 1, offset := u.offset, index := u.index,
             value := optList u.value }
    else none
  else none

/-- Model of `RowBlockContainer::GetBlock` (lines 288-311): when labels are present,
checks `label.size()/label_width + 1 == offset.size()`; then
`offset.back() == index.size()` and the value-length check; then builds the
view, converting each extra channel through its own `GetBlock`.  No check
of the `field` array, of offset monotonicity, or of the extras' row counts
is performed. -/
def RowBlockContainer.getBlock (c : RowBlockContainer) : Option RowBlock :=
  if c.label.length ≠ 0 ∧ c.label.length / c.label_width + 1 ≠ c.offset.length then
    none
  else if c.offset.getLastD 0 = c.index.length then
    if c.offset.getLastD 0 = c.value.length ∨ c.value.length = 0 then
      match mapOpt UnitBlockContainer.getBlock c.extra with
      | none => none
      | some views =>
        some { size := c.offset.length - 1, label_width := c.label_width,
               offset := c.offset, label := c.label, weight := optList c.weight,
               qid := optList c.qid, field := optList c.field, index := c.index,
               value := optList c.value, extra := views }
    else none
  else none

/-- Modelled from the spec (section 3): invariants 1-3 of a unit container.
`offset` has length `size+1` (so is nonempty), is non-decreasing, its last
entry equals `len(index)`, and `value` is full length or empty. -/
def unitInv (u : UnitBlockContainer) : Prop :=
  u.offset.length = u.Size + 1 ∧ List.Chain' (· ≤ ·) u.offset ∧
  u.offset.getLastD 0 = u.index.length ∧
  (u.value.length = u.index.length ∨ u.value = [])

/-- Modelled from the spec (section 3): invariants 1-6 of the primary
container, as the spec states them. -/
def specInv (c : RowBlockContainer) : Prop :=
  c.offset.length = c.Size + 1 ∧ List.Chain' (· ≤ ·) c.offset ∧
  c.offset.getLastD 0 = c.index.length ∧
  (c.value.length = c.index.length ∨ c.value = []) ∧
  (c.label ≠ [] → c.label.length = c.Size * c.label_width) ∧
  (c.field.length = c.index.length ∨ c.field = []) ∧
  (∀ u ∈ c.extra, unitInv u ∧ u.Size = c.Size)

/-- The conditions `GetBlock` actually validates (lines 292-296 and, for
each extra channel, lines 112-113). -/
def checkedInv (c : RowBlockContainer) : Prop :=
  (c.label.length ≠ 0 → c.label.length / c.label_width + 1 = c.offset.length) ∧
  c.offset.getLastD 0 = c.index.length ∧
  (c.offset.getLastD 0 = c.value.length ∨ c.value.length = 0) ∧
  ∀ u ∈ c.extra,
    u.offset.getLastD 0 = u.index.length ∧
    (u.offset.getLastD 0 = u.value.length ∨ u.value.length = 0)

/-! ### Binary codec

`Save`/`Load` (lines 312-338) write and read through `dmlc::Stream`
(dmlc/io.h, not under src/).  Modelled from the spec (section 6): the
record is a fixed-order sequence of length-prefixed arrays
`offset:uint64[] label:float[] weight:float32[] qid:uint64[]
field:IndexType[] index:IndexType[] value:DType[]` followed by the two
fixed-width scalars `max_field max_index`.  A stream is a list of bytes;
each array is written as an 8-byte little-endian length followed by its
elements in a fixed byte width; a read that cannot supply the requested
number of bytes fails without committing.  Element values are their bit
patterns; the index width is the parameter `w` in bytes (4 for the default
32-bit `IndexType`, matching `DType = real_t` width 4). -/

/-- Little-endian encoding of `x` in exactly `w` bytes. -/
def encLE : Nat → Nat → List Nat
  | 0, _ => []
  | w + 1, x => x % 256 :: encLE w (x / 256)

/-- Little-endian decoding of a byte list. -/
def decLE : List Nat → Nat
  | [] => 0
  | b :: bs => b + 256 * decLE bs

/-- Encode each element of `xs` in `w` bytes, concatenated. -/
def encList (w : Nat) (xs : List Nat) : List Nat :=
  xs.foldr (fun x acc => encLE w x ++ acc) []

/-- Read exactly `n` bytes from the stream, failing if fewer remain. -/
def readN (n : Nat) (s : List Nat) : Option (List Nat × List Nat) :=
  if n ≤ s.length then some (s.take n, s.drop n) else none

/-- Decode `n` consecutive `w`-byte elements. -/
def decElems (w : Nat) : Nat → List Nat → List Nat
  | 0, _ => []
  | n + 1, bs => decLE (bs.take w) :: decElems w n (bs.drop w)

/-- Modelled from the spec: `Stream::Write(std::vector)` (dmlc/io.h, not
under src/) — an 8-byte length followed by the elements. -/
def writeVec (w : Nat) (xs : List Nat) : List Nat :=
  encLE 8 xs.length ++ encList w xs

/-- Modelled from the spec: `Stream::Read(std::vector*)` (dmlc/io.h, not
under src/) — reads the 8-byte length then the payload, failing (returning
`none`, the C++ `false`) when the stream cannot supply either in full. -/
def readVec (w : Nat) (s : List Nat) : Option (List Nat × List Nat) :=
  match readN 8 s with
  | none => none
  | some (p, s1) =>
    let sz := decLE p
    match readN (sz * w) s1 with
    | none => none
    | some (d, s2) => some (decElems w sz d, s2)

/-- Model of `RowBlockContainer::Save` (lines 312-324): the seven arrays in fixed
order, then the two raw scalars.  Neither `label_width` nor the extra
channels are written. -/
def save (w : Nat) (c : RowBlockContainer) : List Nat :=
  writeVec 8 c.offset ++ writeVec 4 c.label ++ writeVec 4 c.weight ++
  writeVec 8 c.qid ++ writeVec w c.field ++ writeVec w c.index ++
  writeVec 4 c.value ++ encLE w c.max_field ++ encLE w c.max_index

/-- Outcome of `Load`: `eof` is the clean `return false` of line 328, `ok`
the `return true` of line 337, `badFormat` a failing
`CHECK(...) << "Bad RowBlock format"` on any later read. -/
inductive LoadResult where
  | eof
  | ok
  | badFormat
deriving DecidableEq

/-- Model of `RowBlockContainer::Load` (lines 325-338): reads the seven arrays and
two scalars in the fixed order; a failing first read returns `false`
(`eof`), a failing later read is a hard format failure.  Each successful
vector read replaces the corresponding member; `label_width` and `extra`
are never touched.  (A short scalar read is modelled as a format failure.) -/
def load (w : Nat) (c : RowBlockContainer) (s : List Nat) :
    RowBlockContainer × LoadResult :=
  match readVec 8 s with
  | none => (c, LoadResult.eof)
  | some (off, s1) =>
    let c1 := { c with offset := off }
    match readVec 4 s1 with
    | none => (c1, LoadResult.badFormat)
    | some (lab, s2) =>
      let c2 := { c1 with label := lab }
      match readVec 4 s2 with
      | none => (c2, LoadResult.badFormat)
      | some (ws, s3) =>
        let c3 := { c2 with weight := ws }
        match readVec 8 s3 with
        | none => (c3, LoadResult.badFormat)
        | some (qs, s4) =>
          let c4 := { c3 with qid := qs }
          match readVec w s4 with
          | none => (c4, LoadResult.badFormat)
          | some (fs, s5) =>
            let c5 := { c4 with field := fs }
            match readVec w s5 with
            | none => (c5, LoadResult.badFormat)
            | some (ix, s6) =>
              let c6 := { c5 with index := ix }
              match readVec 4 s6 with
              | none => (c6, LoadResult.badFormat)
              | some (vs, s7) =>
                let c7 := { c6 with value := vs }
                match readN w s7 with
                | none => (c7, LoadResult.badFormat)
                | some (mf, s8) =>
                  let c8 := { c7 with max_field := decLE mf }
                  match readN w s8 with
                  | none => (c8, LoadResult.badFormat)
                  | some (mi, _) =>
                    ({ c8 with max_index := decLE mi }, LoadResult.ok)

/-! ### Sequences of appends and block assembly -/

/-- One append operation: either the single-row or the block-level push. -/
inductive Op where
  | row (r : Row)
  | block (b : RowBlock)

/-- The primary index values an operation supplies: all of `row.index` for
a single-row push, the first `ndata` entries of `batch.index` for a block
push (lines 216, 264). -/
def opIndices : Op → List Nat
  | Op.row r => r.index
  | Op.block b => b.index.take (ndataOf b)

/-- Run a sequence of append operations, stopping at the first error. -/
def runOps (IMax : Nat) (c : RowBlockContainer) :
    List Op → RowBlockContainer × Option PushError
  | [] => (c, none)
  | op :: ops =>
    match (match op with
           | Op.row r => RowBlockContainer.pushRow IMax c r
           | Op.block b => RowBlockContainer.pushBlock IMax c b) with
    | (c2, some e) => (c2, some e)
    | (c2, none) => runOps IMax c2 ops

/-- Push rows one at a time, stopping at the first error. -/
def runRows (IMax : Nat) (c : RowBlockContainer) :
    List Row → RowBlockContainer × Option PushError
  | [] => (c, none)
  | r :: rs =>
    match RowBlockContainer.pushRow IMax c r with
    | (c2, some e) => (c2, some e)
    | (c2, none) => runRows IMax c2 rs

/-- Cumulative feature counts of a row list starting from `base`: the
offsets the rows produce after the initial one. -/
def sumsFrom (base : Nat) : List Row → List Nat
  | [] => []
  | r :: rs => (base + r.index.length) :: sumsFrom (base + r.index.length) rs

/-- Total feature count of a row list. -/
def totalLen (rows : List Row) : Nat :=
  (rows.map (fun r => r.index.length)).sum

/-- Concatenation of the rows' label arrays. -/
def labelFlat (rows : List Row) : List Nat :=
  rows.foldr (fun r acc => r.label ++ acc) []

/-- Concatenation of the rows' index arrays. -/
def indexFlat (rows : List Row) : List Nat :=
  rows.foldr (fun r acc => r.index ++ acc) []

/-- Concatenation of the rows' value arrays (absent value = empty). -/
def valueFlat (rows : List Row) : List Nat :=
  rows.foldr (fun r acc => (r.value).getD [] ++ acc) []

/-- Modelled from the spec (section 8, "pre-assembling an equivalent
block"): the block holding the same rows as parallel arrays — cumulative
offsets from 0, concatenated labels/indices/values, per-row weights and
qids, an explicit row count, no fields and no extras. -/
def assembleBlock (rows : List Row) : RowBlock :=
  { size := rows.length,
    label_width := 1,
    offset := 0 :: sumsFrom 0 rows,
    label := labelFlat rows,
    weight := some (rows.map (fun r => r.weight)),
    qid := some (rows.map (fun r => r.qid)),
    field := none,
    index := indexFlat rows,
    value := if rows.all (fun r => (r.value).isSome) then some (valueFlat rows)
             else none,
    extra := [] }

/-- The value entries a single-row push appends (lines 223-227): the first
`row.length` entries of `row.value` when present, nothing otherwise. -/
def valOf (r : Row) : List Nat :=
  match r.value with
  | some vs => vs.take r.index.length
  | none => []

/-- Concatenation of `valOf` over the rows. -/
def valsFlat (rows : List Row) : List Nat :=
  rows.foldr (fun r acc => valOf r ++ acc) []

/-- A well-formed row for a container with label width `lw` and index
bound `IMax`: exactly `lw` labels, in-bound indices, no field ids, no
extra fragments, and a value array (when present) matching the index
array in length. -/
def wfRow (lw IMax : Nat) (r : Row) : Prop :=
  r.label_width = lw ∧ r.label.length = lw ∧ (∀ v ∈ r.index, v ≤ IMax) ∧
  r.field = none ∧ r.extra = [] ∧
  (match r.value with
   | some vs => vs.length = r.index.length
   | none => True)

/-- Maximum of a list of naturals (0 for the empty list). -/
def listMax (xs : List Nat) : Nat := xs.foldr Nat.max 0

/-! ### Claims -/

/-- A container state satisfying spec invariants 1-6 except invariant 5:
its `field` array is nonempty while `index` is empty. -/
def fieldOnly : RowBlockContainer :=
  { offset := [0], label_width := 1, label := [], weight := [], qid := [],
    field := [7], index := [], value := [], max_field := 7, max_index := 0,
    extra := [] }

/-- A container configured with one (cleared) extra channel. -/
def surplusContainer : RowBlockContainer :=
  { freshContainer with
    extra := [{ offset := [0], index := [], value := [], max_index := 0 }] }

/-- An empty batch carrying no extra channels. -/
def emptyBatch : RowBlock :=
  { size := 0, label_width := 1, offset := [0], label := [], weight := none,
    qid := none, field := none, index := [], value := none, extra := [] }

/-- A container configured with two (cleared) extra channels. -/
def twoExtraContainer : RowBlockContainer :=
  { freshContainer with
    extra := [{ offset := [0], index := [], value := [], max_index := 0 },
              { offset := [0], index := [], value := [], max_index := 0 }] }

/-- An empty batch carrying one (empty) extra channel. -/
def oneExtraBatch : RowBlock :=
  { size := 0, label_width := 1, offset := [0], label := [], weight := none,
    qid := none, field := none, index := [], value := none,
    extra := [{ size := 0, offset := [0], index := [], value := none }] }

/-- A container holding two unlabelled rows: a legitimate state (spec
invariant 4 only constrains `label` once a label has been pushed). -/
def unlabeledContainer : RowBlockContainer :=
  { offset := [0, 1, 2], label_width := 1, label := [], weight := [9, 9],
    qid := [0, 0], field := [], index := [4, 6], value := [], max_field := 0,
    max_index := 6, extra := [] }

/-- A one-row batch with one label and one feature. -/
def onePlainBatch : RowBlock :=
  { size := 1, label_width := 1, offset := [0, 1], label := [7], weight := none,
    qid := none, field := none, index := [2], value := none, extra := [] }

/-- A one-row labelled container, so that `len(label) = Size()`. -/
def labeledOneRow : RowBlockContainer :=
  { offset := [0, 1], label_width := 1, label := [5], weight := [1], qid := [0],
    field := [], index := [2], value := [3], max_field := 0, max_index := 2,
    extra := [] }

/-- A one-row batch with two features. -/
def twoFeatureBatch : RowBlock :=
  { size := 1, label_width := 1, offset := [0, 2], label := [6], weight := none,
    qid := none, field := none, index := [7, 8], value := none, extra := [] }

/-- A row carrying the index 300, above the 8-bit bound 255. -/
def overflowRow : Row :=
  { label_width := 1, label := [1], weight := 1, qid := 0, field := none,
    index := [300], value := some [9], extra := [] }

/-- A labelled single row with feature index 5. -/
def sampleRow : Row :=
  { label_width := 1, label := [1], weight := 1, qid := 0, field := none,
    index := [5], value := some [2], extra := [] }

/-- A one-row batch with feature index 9, pushable after `sampleRow`. -/
def sampleBatch : RowBlock :=
  { size := 1, label_width := 1, offset := [0, 1], label := [2], weight := none,
    qid := none, field := none, index := [9], value := none, extra := [] }

/-- Every entry of `xs` fits in `w` bytes. -/
def fits (w : Nat) (xs : List Nat) : Prop := ∀ x ∈ xs, x < 256 ^ w

/-- All stored values fit their serialized widths (automatic for the typed
C++ vectors: `size_t`/`uint64` are 8 bytes, `real_t` labels/weights/values
4 bytes, `IndexType` `w` bytes) and all lengths fit the `uint64` prefix. -/
def containerFits (w : Nat) (c : RowBlockContainer) : Prop :=
  fits 8 c.offset ∧ fits 4 c.label ∧ fits 4 c.weight ∧ fits 8 c.qid ∧
  fits w c.field ∧ fits w c.index ∧ fits 4 c.value ∧
  c.max_field < 256 ^ w ∧ c.max_index < 256 ^ w ∧
  c.offset.length < 256 ^ 8 ∧ c.label.length < 256 ^ 8 ∧
  c.weight.length < 256 ^ 8 ∧ c.qid.length < 256 ^ 8 ∧
  c.field.length < 256 ^ 8 ∧ c.index.length < 256 ^ 8 ∧
  c.value.length < 256 ^ 8

/-- A fresh container whose `label_width` was configured to 2. -/
def wideLabelContainer : RowBlockContainer :=
  { freshContainer with label_width := 2 }

/-- A container holding one extra channel that carries one row. -/
def extrasContainer : RowBlockContainer :=
  { freshContainer with
    extra := [{ offset := [0, 1], index := [3], value := [], max_index := 3 }] }

/-- A stream holding a complete 8-byte length prefix announcing one offset
entry, followed by only 2 of the 8 announced payload bytes. -/
def shortStream : List Nat := encLE 8 1 ++ [0, 0]

/-- A second well-formed labelled row with feature index 7. -/
def sampleRowB : Row :=
  { label_width := 1, label := [4], weight := 1, qid := 0, field := none,
    index := [7, 3], value := some [8, 6], extra := [] }

/-! ### Helper lemmas -/

theorem mapOpt_isSome {α β : Type} {f : α → Option β} {l : List α} :
    (mapOpt f l).isSome = true ↔ ∀ a ∈ l, (f a).isSome = true := by
  induction l with
  | nil => simp [mapOpt]
  | cons a as ih =>
    simp only [mapOpt]
    cases hfa : f a <;> cases hm : mapOpt f as <;> simp_all

theorem unitGetBlock_isSome (u : UnitBlockContainer) :
    (u.getBlock).isSome = true ↔
      (u.offset.getLastD 0 = u.index.length ∧
       (u.offset.getLastD 0 = u.value.length ∨ u.value.length = 0)) := by
  unfold UnitBlockContainer.getBlock
  split_ifs with h1 h2 <;> simp_all

theorem pushBlockExtras_none {IMax sz : Nat} {cs : List UnitBlockContainer}
    {bs : List UnitBlock} (h : (pushBlockExtras IMax sz cs bs).2 = none) :
    bs.length ≤ cs.length ∧
      (pushBlockExtras IMax sz cs bs).1.drop bs.length = cs.drop bs.length := by
  induction bs generalizing cs with
  | nil => simp [pushBlockExtras]
  | cons b bs ih =>
    cases cs with
    | nil => simp [pushBlockExtras] at h
    | cons u cs =>
      simp only [pushBlockExtras] at h ⊢
      cases hu : UnitBlockContainer.pushBlock IMax u b sz with
      | mk u2 e =>
        cases e with
        | some e => simp [hu] at h
        | none =>
          simp only [hu] at h ⊢
          have hxx := @ih cs h
          simpa [Nat.succ_le_succ_iff] using hxx

theorem pushBlockExtras_longer {IMax sz : Nat} {cs : List UnitBlockContainer}
    {bs : List UnitBlock} (h : cs.length < bs.length) :
    ((pushBlockExtras IMax sz cs bs).2).isSome = true := by
  induction bs generalizing cs with
  | nil => simp at h
  | cons b bs ih =>
    cases cs with
    | nil => simp [pushBlockExtras]
    | cons u cs =>
      simp only [pushBlockExtras]
      cases hu : UnitBlockContainer.pushBlock IMax u b sz with
      | mk u2 e =>
        cases e with
        | some e => simp
        | none =>
          simp only []
          exact ih (by simpa [Nat.succ_lt_succ_iff] using h)

theorem length_resizeTo (l : List Nat) (n : Nat) : (resizeTo l n).length = n := by
  simp [resizeTo]
  omega

theorem overwriteAt_nil (l : List Nat) (p : Nat) : overwriteAt l p [] = l := by
  simp [overwriteAt]

theorem overwriteAt_cons (a : Nat) (l : List Nat) (p : Nat) (xs : List Nat) :
    overwriteAt (a :: l) (p + 1) xs = a :: overwriteAt l p xs := by
  have h : p + 1 + xs.length = (p + xs.length) + 1 := by omega
  simp [overwriteAt, h]

theorem overwriteAt_set {arr : List Nat} {pos : Nat} (x : Nat) (rest : List Nat)
    (hp : pos < arr.length) :
    overwriteAt (arr.set pos x) (pos + 1) rest = overwriteAt arr pos (x :: rest) := by
  induction arr generalizing pos with
  | nil => simp at hp
  | cons a as ih =>
    cases pos with
    | zero =>
      have h : 1 + rest.length = rest.length + 1 := by omega
      simp [overwriteAt, h]
    | succ p =>
      have hp2 : p < as.length := by simpa using hp
      have hset : (a :: as).set (p + 1) x = a :: as.set p x := rfl
      rw [hset, overwriteAt_cons, overwriteAt_cons, ih hp2]

theorem pushList_ok {IMax : Nat} {xs : List Nat} (h : ∀ x ∈ xs, x ≤ IMax) :
    ∀ dst mx, pushList IMax dst mx xs = ((dst ++ xs, xs.foldl Nat.max mx), none) := by
  induction xs with
  | nil => intro dst mx; simp [pushList]
  | cons x rest ih =>
    intro dst mx
    have hx : x ≤ IMax := h x (by simp)
    simp only [pushList, if_pos hx]
    rw [ih (fun y hy => h y (by simp [hy]))]
    simp [List.foldl_cons]

theorem pushList_max_le (IMax : Nat) (xs : List Nat) :
    ∀ dst mx, (pushList IMax dst mx xs).1.2 ≤ Nat.max mx IMax := by
  induction xs with
  | nil => intro dst mx; simp [pushList, Nat.le_max_left]
  | cons x rest ih =>
    intro dst mx
    by_cases hx : x ≤ IMax
    · simp only [pushList, if_pos hx]
      refine le_trans (ih _ _) (Nat.max_le.mpr ⟨Nat.max_le.mpr ?_, Nat.le_max_right _ _⟩)
      exact ⟨Nat.le_max_left _ _, le_trans hx (Nat.le_max_right _ _)⟩
    · simp [pushList, if_neg hx, Nat.le_max_left]

theorem pushList_overflow {IMax : Nat} {xs : List Nat} (h : ∃ x ∈ xs, IMax < x) :
    ∀ dst mx, (pushList IMax dst mx xs).2 = some PushError.overflow := by
  induction xs with
  | nil => simp at h
  | cons x rest ih =>
    intro dst mx
    by_cases hx : x ≤ IMax
    · simp only [pushList, if_pos hx]
      apply ih
      rcases h with ⟨y, hy, hlt⟩
      rcases List.mem_cons.mp hy with rfl | hy2
      · omega
      · exact ⟨y, hy2, hlt⟩
    · simp [pushList, if_neg hx]

theorem pushList_none {IMax : Nat} {xs : List Nat} :
    ∀ {dst mx}, (pushList IMax dst mx xs).2 = none → ∀ x ∈ xs, x ≤ IMax := by
  induction xs with
  | nil => intro dst mx _; simp
  | cons x rest ih =>
    intro dst mx h
    by_cases hx : x ≤ IMax
    · simp only [pushList, if_pos hx] at h
      intro y hy
      rcases List.mem_cons.mp hy with rfl | hy2
      · exact hx
      · exact ih h y hy2
    · simp [pushList, if_neg hx] at h

theorem writeSeq_ok {IMax : Nat} {xs : List Nat} (h2 : ∀ x ∈ xs, x ≤ IMax) :
    ∀ arr pos mx, pos + xs.length ≤ arr.length →
      writeSeq IMax arr pos mx xs = ((overwriteAt arr pos xs, xs.foldl Nat.max mx), none) := by
  induction xs with
  | nil => intro arr pos mx _; simp [writeSeq, overwriteAt_nil]
  | cons x rest ih =>
    intro arr pos mx h1
    have hx : x ≤ IMax := h2 x (by simp)
    have hp : pos < arr.length := by simp at h1; omega
    simp only [writeSeq, if_pos hx, if_pos hp]
    rw [ih (fun y hy => h2 y (by simp [hy])) _ _ _ (by simp at h1 ⊢; omega)]
    rw [overwriteAt_set x rest hp]
    simp [List.foldl_cons]

theorem writeSeq_max_le (IMax : Nat) (xs : List Nat) :
    ∀ arr pos mx, (writeSeq IMax arr pos mx xs).1.2 ≤ Nat.max mx IMax := by
  induction xs with
  | nil => intro arr pos mx; simp [writeSeq, Nat.le_max_left]
  | cons x rest ih =>
    intro arr pos mx
    by_cases hx : x ≤ IMax
    · by_cases hp : pos < arr.length
      · simp only [writeSeq, if_pos hx, if_pos hp]
        refine le_trans (ih _ _ _) (Nat.max_le.mpr ⟨Nat.max_le.mpr ?_, Nat.le_max_right _ _⟩)
        exact ⟨Nat.le_max_left _ _, le_trans hx (Nat.le_max_right _ _)⟩
      · simp [writeSeq, if_pos hx, if_neg hp, Nat.le_max_left]
    · simp [writeSeq, if_neg hx, Nat.le_max_left]

theorem writeSeq_overflow {IMax : Nat} {xs : List Nat} :
    ∀ arr pos mx, pos + xs.length ≤ arr.length → (∃ x ∈ xs, IMax < x) →
      (writeSeq IMax arr pos mx xs).2 = some PushError.overflow := by
  induction xs with
  | nil => intro arr pos mx _ h; simp at h
  | cons x rest ih =>
    intro arr pos mx h1 h
    by_cases hx : x ≤ IMax
    · have hp : pos < arr.length := by simp at h1; omega
      simp only [writeSeq, if_pos hx, if_pos hp]
      apply ih _ _ _ (by simp at h1 ⊢; omega)
      rcases h with ⟨y, hy, hlt⟩
      rcases List.mem_cons.mp hy with rfl | hy2
      · omega
      · exact ⟨y, hy2, hlt⟩
    · simp [writeSeq, if_neg hx]

theorem writeSeq_none_max {IMax : Nat} {xs : List Nat} :
    ∀ {arr pos mx}, (writeSeq IMax arr pos mx xs).2 = none →
      (writeSeq IMax arr pos mx xs).1.2 = xs.foldl Nat.max mx := by
  induction xs with
  | nil => intro arr pos mx _; simp [writeSeq]
  | cons x rest ih =>
    intro arr pos mx h
    by_cases hx : x ≤ IMax
    · by_cases hp : pos < arr.length
      · simp only [writeSeq, if_pos hx, if_pos hp] at h ⊢
        exact ih h
      · simp [writeSeq, if_pos hx, if_neg hp] at h
    · simp [writeSeq, if_neg hx] at h

theorem pushBlockMain_extra (IMax : Nat) (c : RowBlockContainer) (b : RowBlock) :
    (RowBlockContainer.pushBlockMain IMax c b).1.extra = c.extra := by
  unfold RowBlockContainer.pushBlockMain
  dsimp only
  repeat' split
  all_goals simp

theorem pushBlock_none_extras {IMax : Nat} {c : RowBlockContainer} {b : RowBlock}
    (h : (RowBlockContainer.pushBlock IMax c b).2 = none) :
    (RowBlockContainer.pushBlock IMax c b).1.extra =
      (pushBlockExtras IMax c.label.length c.extra b.extra).1 ∧
    (pushBlockExtras IMax c.label.length c.extra b.extra).2 = none := by
  unfold RowBlockContainer.pushBlock at h ⊢
  cases hm : RowBlockContainer.pushBlockMain IMax c b with
  | mk c7 e =>
    cases e with
    | some e => rw [hm] at h; simp at h
    | none =>
      rw [hm] at h
      dsimp only at h ⊢
      have hex : c7.extra = c.extra := by
        have hpm := pushBlockMain_extra IMax c b
        rw [hm] at hpm
        exact hpm
      rw [hex] at h ⊢
      cases hpe : pushBlockExtras IMax c.label.length c.extra b.extra with
      | mk ex2 e2 =>
        rw [hpe] at h
        cases e2 with
        | some e2 => simp at h
        | none => simp

theorem foldl_max_le {IMax : Nat} {xs : List Nat} (h : ∀ x ∈ xs, x ≤ IMax) (mx : Nat) :
    xs.foldl Nat.max mx ≤ Nat.max mx IMax := by
  have hml := pushList_max_le IMax xs [] mx
  rwa [pushList_ok h] at hml

theorem pushBlock_err {IMax : Nat} {c : RowBlockContainer} {b : RowBlock} {e : PushError}
    (h : (RowBlockContainer.pushBlockMain IMax c b).2 = some e) :
    RowBlockContainer.pushBlock IMax c b =
      ((RowBlockContainer.pushBlockMain IMax c b).1, some e) := by
  unfold RowBlockContainer.pushBlock
  cases hm : RowBlockContainer.pushBlockMain IMax c b with
  | mk c7 e2 =>
    rw [hm] at h
    cases e2 with
    | some e2 =>
      simp only [Option.some.injEq] at h
      subst h
      rfl
    | none => simp at h

/-- C2 counterexample: `fieldOnly` violates spec invariant 5 (`field` is
neither empty nor of `index`'s length), yet `GetBlock` succeeds and returns
a view — so `GetView` does not fail on every violation of invariants 1-6. -/
theorem claim2_counterexample :
    ¬ specInv fieldOnly ∧ (RowBlockContainer.getBlock fieldOnly).isSome = true := by
  refine ⟨fun h => ?_, by decide⟩
  rcases h.2.2.2.2.2.1 with h5 | h5 <;> simp [fieldOnly] at h5

/-- C2 (amended): `GetBlock` succeeds exactly when the checks it actually
performs hold: the label-length check (when labels are present), invariants
2-3 of the primary arrays, and invariants 2-3 of each extra channel.  The
`field` array, offset monotonicity, and the extras' row-count sync with the
primary container are not validated. -/
theorem claim2_amended (c : RowBlockContainer) :
    (RowBlockContainer.getBlock c).isSome = true ↔ checkedInv c := by
  unfold RowBlockContainer.getBlock checkedInv
  by_cases h1 : c.label.length ≠ 0 ∧ c.label.length / c.label_width + 1 ≠ c.offset.length
  · rw [if_pos h1]
    simp only [Option.isSome_none, Bool.false_eq_true, false_iff]
    exact fun hc => h1.2 (hc.1 h1.1)
  · rw [if_neg h1]
    have hlab : c.label.length ≠ 0 → c.label.length / c.label_width + 1 = c.offset.length :=
      fun hl => by_contra fun hne => h1 ⟨hl, hne⟩
    by_cases h2 : c.offset.getLastD 0 = c.index.length
    · rw [if_pos h2]
      by_cases h3 : c.offset.getLastD 0 = c.value.length ∨ c.value.length = 0
      · rw [if_pos h3]
        cases hm : mapOpt UnitBlockContainer.getBlock c.extra with
        | none =>
          simp only [Option.isSome_none, Bool.false_eq_true, false_iff]
          intro hc
          have hall : ∀ a ∈ c.extra, (UnitBlockContainer.getBlock a).isSome = true :=
            fun u hu => (unitGetBlock_isSome u).mpr (hc.2.2.2 u hu)
          have hms := mapOpt_isSome.mpr hall
          rw [hm] at hms
          simp at hms
        | some views =>
          simp only [Option.isSome_some, true_iff]
          have hms : (mapOpt UnitBlockContainer.getBlock c.extra).isSome = true := by
            rw [hm]; rfl
          have hall := mapOpt_isSome.mp hms
          exact ⟨hlab, h2, h3, fun u hu => (unitGetBlock_isSome u).mp (hall u hu)⟩
      · rw [if_neg h3]
        simp only [Option.isSome_none, Bool.false_eq_true, false_iff]
        exact fun hc => h3 hc.2.2.1
    · rw [if_neg h2]
      simp only [Option.isSome_none, Bool.false_eq_true, false_iff]
      exact fun hc => h2 hc.2.1

/-- C5 counterexample: the batch's extra-channel count (0) differs from the
container's configured count (1), yet the block-level push succeeds with no
`SizeMismatchError` — the source performs no channel-count check. -/
theorem claim5_counterexample :
    surplusContainer.extra.length = 1 ∧ emptyBatch.extra.length = 0 ∧
    (RowBlockContainer.pushBlock 255 surplusContainer emptyBatch).2 = none := by
  constructor
  · rfl
  constructor
  · rfl
  · decide

/-- C5 (amended): the block-level push performs no extra-channel-count
check.  On success the batch cannot have had more extra channels than the
container, and every surplus container channel is left untouched with no
error; a batch with more extra channels than the container makes the push
fail (with an out-of-range channel access, not a `SizeMismatchError`),
provided the earlier stages did not already fail. -/
theorem claim5_amended (IMax : Nat) (c : RowBlockContainer) (b : RowBlock) :
    ((RowBlockContainer.pushBlock IMax c b).2 = none →
      b.extra.length ≤ c.extra.length ∧
      (RowBlockContainer.pushBlock IMax c b).1.extra.drop b.extra.length =
        c.extra.drop b.extra.length) ∧
    (c.extra.length < b.extra.length →
      ((RowBlockContainer.pushBlock IMax c b).2).isSome = true) := by
  constructor
  · intro h
    rcases pushBlock_none_extras h with ⟨hex, hnone⟩
    rcases pushBlockExtras_none hnone with ⟨hle, hdrop⟩
    exact ⟨hle, by rw [hex]; exact hdrop⟩
  · intro hlt
    cases he : (RowBlockContainer.pushBlock IMax c b).2 with
    | some e => rfl
    | none =>
      rcases pushBlock_none_extras he with ⟨_, hnone⟩
      have := (pushBlockExtras_none hnone).1
      omega

/-- C5 witness: a container configured with two extra channels merged with
a batch carrying one extra channel — the push succeeds and the surplus
channel is untouched. -/
theorem claim5_witness :
    (RowBlockContainer.pushBlock 255 twoExtraContainer oneExtraBatch).1.extra.drop
        oneExtraBatch.extra.length =
      twoExtraContainer.extra.drop oneExtraBatch.extra.length :=
  ((claim5_amended 255 twoExtraContainer oneExtraBatch).1 (by decide)).2

/-- C10: `label_width` is untouched by `Clear`, never written by `Save`
(two containers differing only in `label_width` produce identical saved
bytes), and never read or overwritten by `Load`. -/
theorem claim10_label_width_frame (c : RowBlockContainer) (n w : Nat) (s : List Nat) :
    (RowBlockContainer.clear c).label_width = c.label_width ∧
    save w { c with label_width := n } = save w c ∧
    (load w c s).1.label_width = c.label_width := by
  refine ⟨rfl, rfl, ?_⟩
  unfold load
  dsimp only
  repeat' split
  all_goals simp

/-- C6: an append (single-row or block) supplying a primary index or field
value above the container's representable bound `IMax` fails with
`OverflowError`, and neither `max_index` nor `max_field` is ever updated
with a value derived from an overflowing entry: both stay bounded by the
maximum of their prior value and `IMax`, hence strictly below the
overflowing value.  The block part assumes the container's write positions
are in range (invariant 2, and a full-length field array when the batch
carries fields), since an out-of-range write would be undefined behaviour
before the check is reached. -/
theorem claim6_overflow (IMax : Nat) :
    (∀ (c : RowBlockContainer) (r : Row),
      ((∃ v ∈ ((r.field).getD []).take r.index.length, IMax < v) ∨
        (∃ v ∈ r.index, IMax < v)) →
      (RowBlockContainer.pushRow IMax c r).2 = some PushError.overflow ∧
      (RowBlockContainer.pushRow IMax c r).1.max_index ≤ Nat.max c.max_index IMax ∧
      (RowBlockContainer.pushRow IMax c r).1.max_field ≤ Nat.max c.max_field IMax) ∧
    (∀ (c : RowBlockContainer) (b : RowBlock),
      (b.field ≠ none → c.offset.getLastD 0 ≤ c.field.length) →
      c.offset.getLastD 0 ≤ c.index.length →
      ((∃ v ∈ ((b.field).getD []).take (ndataOf b), IMax < v) ∨
        (∃ v ∈ b.index.take (ndataOf b), IMax < v)) →
      (RowBlockContainer.pushBlock IMax c b).2 = some PushError.overflow ∧
      (RowBlockContainer.pushBlock IMax c b).1.max_index ≤ Nat.max c.max_index IMax ∧
      (RowBlockContainer.pushBlock IMax c b).1.max_field ≤ Nat.max c.max_field IMax) := by
  constructor
  · intro c r hov
    unfold RowBlockContainer.pushRow
    dsimp only
    rcases hf : r.field with _ | fs
    · rw [hf] at hov
      simp only [Option.getD_none, List.take_nil] at hov
      have hio : ∃ v ∈ r.index, IMax < v := by
        rcases hov with h | h
        · simp at h
        · exact h
      dsimp only
      rcases hpl : pushList IMax c.index c.max_index r.index with ⟨⟨i2, mi2⟩, e⟩
      have he : e = some PushError.overflow := by
        have := pushList_overflow hio c.index c.max_index
        rw [hpl] at this
        exact this
      subst he
      dsimp only
      refine ⟨rfl, ?_, Nat.le_max_left _ _⟩
      have := pushList_max_le IMax r.index c.index c.max_index
      rw [hpl] at this
      exact this
    · rw [hf] at hov
      simp only [Option.getD_some] at hov
      dsimp only
      by_cases hfo : ∃ v ∈ fs.take r.index.length, IMax < v
      · rcases hpl : pushList IMax c.field c.max_field (fs.take r.index.length) with ⟨⟨f2, mf2⟩, e⟩
        have he : e = some PushError.overflow := by
          have := pushList_overflow hfo c.field c.max_field
          rw [hpl] at this
          exact this
        subst he
        dsimp only
        refine ⟨rfl, Nat.le_max_left _ _, ?_⟩
        have := pushList_max_le IMax (fs.take r.index.length) c.field c.max_field
        rw [hpl] at this
        exact this
      · have hio : ∃ v ∈ r.index, IMax < v := by
          rcases hov with h | h
          · exact absurd h hfo
          · exact h
        have hok : ∀ x ∈ fs.take r.index.length, x ≤ IMax := by
          intro x hx
          by_contra hgt
          exact hfo ⟨x, hx, by omega⟩
        rw [pushList_ok hok]
        rcases hpl : pushList IMax c.index c.max_index r.index with ⟨⟨i2, mi2⟩, e⟩
        have he : e = some PushError.overflow := by
          have := pushList_overflow hio c.index c.max_index
          rw [hpl] at this
          exact this
        subst he
        dsimp only
        refine ⟨rfl, ?_, foldl_max_le hok c.max_field⟩
        have := pushList_max_le IMax r.index c.index c.max_index
        rw [hpl] at this
        exact this
  · intro c b hfok hiok hov
    have hmain : (RowBlockContainer.pushBlockMain IMax c b).2 = some PushError.overflow ∧
        (RowBlockContainer.pushBlockMain IMax c b).1.max_index ≤ Nat.max c.max_index IMax ∧
        (RowBlockContainer.pushBlockMain IMax c b).1.max_field ≤ Nat.max c.max_field IMax := by
      unfold RowBlockContainer.pushBlockMain
      dsimp only
      rcases hf : b.field with _ | fs
      · rw [hf] at hov
        simp only [Option.getD_none, List.take_nil] at hov
        dsimp only
        have hio : ∃ v ∈ b.index.take (ndataOf b), IMax < v := by
          rcases hov with h | h
          · simp at h
          · exact h
        rcases hw : writeSeq IMax (resizeTo c.index (c.index.length + ndataOf b))
            (c.offset.getLastD 0) c.max_index (b.index.take (ndataOf b)) with ⟨⟨i2, mi2⟩, e⟩
        have hbound : c.offset.getLastD 0 + (b.index.take (ndataOf b)).length ≤
            (resizeTo c.index (c.index.length + ndataOf b)).length := by
          rw [length_resizeTo, List.length_take]
          omega
        have he : e = some PushError.overflow := by
          have := writeSeq_overflow (resizeTo c.index (c.index.length + ndataOf b))
            (c.offset.getLastD 0) c.max_index hbound hio
          rw [hw] at this
          exact this
        subst he
        dsimp only
        refine ⟨rfl, ?_, Nat.le_max_left _ _⟩
        have := writeSeq_max_le IMax (b.index.take (ndataOf b))
          (resizeTo c.index (c.index.length + ndataOf b)) (c.offset.getLastD 0) c.max_index
        rw [hw] at this
        exact this
      · rw [hf] at hov
        simp only [Option.getD_some] at hov
        dsimp only
        have hfbound : c.offset.getLastD 0 + (fs.take (ndataOf b)).length ≤
            (resizeTo c.field (c.field.length + ndataOf b)).length := by
          rw [length_resizeTo, List.length_take]
          have := hfok (by simp [hf])
          omega
        by_cases hfo : ∃ v ∈ fs.take (ndataOf b), IMax < v
        · rcases hw : writeSeq IMax (resizeTo c.field (c.field.length + ndataOf b))
              (c.offset.getLastD 0) c.max_field (fs.take (ndataOf b)) with ⟨⟨f2, mf2⟩, e⟩
          have he : e = some PushError.overflow := by
            have := writeSeq_overflow (resizeTo c.field (c.field.length + ndataOf b))
              (c.offset.getLastD 0) c.max_field hfbound hfo
            rw [hw] at this
            exact this
          subst he
          dsimp only
          refine ⟨rfl, Nat.le_max_left _ _, ?_⟩
          have := writeSeq_max_le IMax (fs.take (ndataOf b))
            (resizeTo c.field (c.field.length + ndataOf b)) (c.offset.getLastD 0) c.max_field
          rw [hw] at this
          exact this
        · have hio : ∃ v ∈ b.index.take (ndataOf b), IMax < v := by
            rcases hov with h | h
            · exact absurd h hfo
            · exact h
          have hok : ∀ x ∈ fs.take (ndataOf b), x ≤ IMax := by
            intro x hx
            by_contra hgt
            exact hfo ⟨x, hx, by omega⟩
          rw [writeSeq_ok hok _ _ _ hfbound]
          rcases hw : writeSeq IMax (resizeTo c.index (c.index.length + ndataOf b))
              (c.offset.getLastD 0) c.max_index (b.index.take (ndataOf b)) with ⟨⟨i2, mi2⟩, e⟩
          have hbound : c.offset.getLastD 0 + (b.index.take (ndataOf b)).length ≤
              (resizeTo c.index (c.index.length + ndataOf b)).length := by
            rw [length_resizeTo, List.length_take]
            omega
          have he : e = some PushError.overflow := by
            have := writeSeq_overflow (resizeTo c.index (c.index.length + ndataOf b))
              (c.offset.getLastD 0) c.max_index hbound hio
            rw [hw] at this
            exact this
          subst he
          dsimp only
          refine ⟨rfl, ?_, foldl_max_le hok c.max_field⟩
          have := writeSeq_max_le IMax (b.index.take (ndataOf b))
            (resizeTo c.index (c.index.length + ndataOf b)) (c.offset.getLastD 0) c.max_index
          rw [hw] at this
          exact this
    rw [pushBlock_err hmain.1]
    exact ⟨rfl, hmain.2.1, hmain.2.2⟩

theorem pushBlockMain_none_offset {IMax : Nat} {c : RowBlockContainer} {b : RowBlock}
    (h : (RowBlockContainer.pushBlockMain IMax c b).2 = none) :
    c.label.length < c.offset.length ∧
    (RowBlockContainer.pushBlockMain IMax c b).1.offset =
      overwriteAt (resizeTo c.offset (c.offset.length + b.size)) (c.label.length + 1)
        ((List.range b.size).map fun i =>
          (c.offset.getD c.label.length 0 + b.offset.getD (i + 1) 0) -
            b.offset.getD 0 0) := by
  revert h
  unfold RowBlockContainer.pushBlockMain
  dsimp only
  split
  · intro h; simp at h
  · split
    · intro h; simp at h
    · split
      · intro hdone
        rename_i hlt
        exact ⟨hlt, rfl⟩
      · intro h; simp at h

theorem pushBlock_none_main {IMax : Nat} {c : RowBlockContainer} {b : RowBlock}
    (h : (RowBlockContainer.pushBlock IMax c b).2 = none) :
    (RowBlockContainer.pushBlockMain IMax c b).2 = none ∧
    (RowBlockContainer.pushBlock IMax c b).1.offset =
      (RowBlockContainer.pushBlockMain IMax c b).1.offset := by
  unfold RowBlockContainer.pushBlock at h ⊢
  cases hm : RowBlockContainer.pushBlockMain IMax c b with
  | mk c7 e =>
    rw [hm] at h
    cases e with
    | some e => simp at h
    | none =>
      refine ⟨rfl, ?_⟩
      cases hpe : pushBlockExtras IMax c.label.length c7.extra b.extra with
      | mk ex2 e2 => rfl

theorem overwriteAt_append (l l2 xs : List Nat) :
    overwriteAt (l ++ l2) l.length xs = l ++ xs ++ l2.drop xs.length := by
  simp only [overwriteAt, List.take_left, List.drop_append, List.append_assoc]

/-- C1 counterexample: pushing `onePlainBatch` (1 row) into
`unlabeledContainer` (2 rows, no labels) succeeds, but the resulting
offsets are `[0, 1, 2, 0]`, not the `[0, 1, 2, 3]` the claim's
`priorSize = Size()` formula predicts: the source uses `label.size()` (= 0
here), so the appended offset is written over position 1 with shift
`offset[0]` instead of appended at position 3 with shift `offset[2]`. -/
theorem claim1_counterexample :
    (RowBlockContainer.pushBlock 255 unlabeledContainer onePlainBatch).2 = none ∧
    RowBlockContainer.Size unlabeledContainer = 2 ∧
    (RowBlockContainer.pushBlock 255 unlabeledContainer onePlainBatch).1.offset = [0, 1, 2, 0] ∧
    unlabeledContainer.offset ++ (List.range onePlainBatch.size).map (fun i =>
      unlabeledContainer.offset.getD (RowBlockContainer.Size unlabeledContainer) 0 +
        (onePlainBatch.offset.getD (i + 1) 0 - onePlainBatch.offset.getD 0 0)) = [0, 1, 2, 3] ∧
    (RowBlockContainer.pushBlock 255 unlabeledContainer onePlainBatch).1.offset ≠
      [0, 1, 2, 3] := by
  refine ⟨by decide, by decide, by decide, by decide, by decide⟩

/-- C1 (amended): `PushBlock` computes `priorSize` as `len(label)` taken
before any mutation — which coincides with the row count `Size()` exactly
when every row carries one label slot, i.e. `len(label) = Size()`.  Under
that condition a successful push appends, for each batch row `i`, the
offset `offset[priorSize] + (batch.offset[i+1] - batch.offset[0])`, and
forwards `priorSize` as `expectedRows` to every extra channel's
`PushBlock`. -/
theorem claim1_amended (IMax : Nat) (c : RowBlockContainer) (b : RowBlock)
    (hsz : c.label.length = RowBlockContainer.Size c) (hne : c.offset ≠ [])
    (hmono : ∀ i < b.size, b.offset.getD 0 0 ≤ b.offset.getD (i + 1) 0)
    (hsucc : (RowBlockContainer.pushBlock IMax c b).2 = none) :
    (RowBlockContainer.pushBlock IMax c b).1.offset =
      c.offset ++ (List.range b.size).map (fun i =>
        c.offset.getD (RowBlockContainer.Size c) 0 +
          (b.offset.getD (i + 1) 0 - b.offset.getD 0 0)) ∧
    (RowBlockContainer.pushBlock IMax c b).1.extra =
      (pushBlockExtras IMax (RowBlockContainer.Size c) c.extra b.extra).1 := by
  rcases pushBlock_none_main hsucc with ⟨hmn, hoff⟩
  rcases pushBlockMain_none_offset hmn with ⟨hlt, hmoff⟩
  have hlen : c.offset.length = RowBlockContainer.Size c + 1 := by
    have : c.offset.length ≠ 0 := fun h0 => hne (List.length_eq_zero.mp h0)
    unfold RowBlockContainer.Size
    omega
  constructor
  · rw [hoff, hmoff]
    have hres : resizeTo c.offset (c.offset.length + b.size) =
        c.offset ++ List.replicate b.size 0 := by
      unfold resizeTo
      rw [List.take_of_length_le (by omega)]
      have harith : c.offset.length + b.size - c.offset.length = b.size := by omega
      rw [harith]
    have hpos : c.label.length + 1 = c.offset.length := by omega
    rw [hres, hpos, overwriteAt_append]
    simp only [List.length_map, List.length_range, List.drop_replicate, Nat.sub_self,
      List.replicate_zero, List.append_nil]
    congr 1
    apply List.map_congr_left
    intro i hi
    have hi2 := List.mem_range.mp hi
    have hm2 := hmono i hi2
    rw [hsz]
    omega
  · rw [(pushBlock_none_extras hsucc).1, hsz]

/-- C1 witness: the amended claim evaluated on a labelled one-row container
and a one-row batch. -/
theorem claim1_witness :
    (RowBlockContainer.pushBlock 255 labeledOneRow twoFeatureBatch).1.offset =
      labeledOneRow.offset ++ (List.range twoFeatureBatch.size).map (fun i =>
        labeledOneRow.offset.getD (RowBlockContainer.Size labeledOneRow) 0 +
          (twoFeatureBatch.offset.getD (i + 1) 0 - twoFeatureBatch.offset.getD 0 0)) ∧
    (RowBlockContainer.pushBlock 255 labeledOneRow twoFeatureBatch).1.extra =
      (pushBlockExtras 255 (RowBlockContainer.Size labeledOneRow) labeledOneRow.extra
        twoFeatureBatch.extra).1 :=
  claim1_amended 255 labeledOneRow twoFeatureBatch (by decide) (by decide)
    (by decide) (by decide)

theorem foldl_max_eq_max_listMax (xs : List Nat) :
    ∀ a, xs.foldl Nat.max a = Nat.max a (listMax xs) := by
  induction xs with
  | nil => intro a; simp [listMax]
  | cons x rest ih =>
    intro a
    simp only [List.foldl_cons, listMax, List.foldr_cons]
    rw [ih (Nat.max a x)]
    exact Nat.max_assoc a x (List.foldr Nat.max 0 rest)

theorem pushRow_none_max {IMax : Nat} {c : RowBlockContainer} {r : Row}
    (h : (RowBlockContainer.pushRow IMax c r).2 = none) :
    (RowBlockContainer.pushRow IMax c r).1.max_index =
      r.index.foldl Nat.max c.max_index := by
  revert h
  unfold RowBlockContainer.pushRow
  dsimp only
  rcases hf : r.field with _ | fs <;> dsimp only
  case none =>
    rcases hpl : pushList IMax c.index c.max_index r.index with ⟨⟨i2, mi2⟩, e⟩
    cases e with
    | some e => intro h; simp at h
    | none =>
      rcases hex : pushRowExtras IMax c.extra r.extra with ⟨ex2, e2⟩
      cases e2 with
      | some e2 => intro h; simp at h
      | none =>
        intro _
        dsimp only
        have hok := pushList_ok (pushList_none (by rw [hpl])) c.index c.max_index
        rw [hpl] at hok
        simp only [Prod.mk.injEq] at hok
        exact hok.1.2
  case some =>
    rcases hplf : pushList IMax c.field c.max_field (fs.take r.index.length) with ⟨⟨f2, mf2⟩, ef⟩
    cases ef with
    | some e => intro h; simp at h
    | none =>
      dsimp only
      rcases hpl : pushList IMax c.index c.max_index r.index with ⟨⟨i2, mi2⟩, e⟩
      cases e with
      | some e => intro h; simp at h
      | none =>
        rcases hex : pushRowExtras IMax c.extra r.extra with ⟨ex2, e2⟩
        cases e2 with
        | some e2 => intro h; simp at h
        | none =>
          intro _
          dsimp only
          have hok := pushList_ok (pushList_none (by rw [hpl])) c.index c.max_index
          rw [hpl] at hok
          simp only [Prod.mk.injEq] at hok
          exact hok.1.2

theorem pushBlockMain_none_max {IMax : Nat} {c : RowBlockContainer} {b : RowBlock}
    (h : (RowBlockContainer.pushBlockMain IMax c b).2 = none) :
    (RowBlockContainer.pushBlockMain IMax c b).1.max_index =
      (b.index.take (ndataOf b)).foldl Nat.max c.max_index := by
  revert h
  unfold RowBlockContainer.pushBlockMain
  dsimp only
  rcases hf : b.field with _ | fs <;> dsimp only
  case none =>
    rcases hw : writeSeq IMax (resizeTo c.index (c.index.length + ndataOf b))
        (c.offset.getLastD 0) c.max_index (b.index.take (ndataOf b)) with ⟨⟨i2, mi2⟩, e⟩
    cases e with
    | some e => intro h; simp at h
    | none =>
      dsimp only
      split
      · intro _
        dsimp only
        have hm := @writeSeq_none_max IMax (b.index.take (ndataOf b))
          (resizeTo c.index (c.index.length + ndataOf b)) (c.offset.getLastD 0)
          c.max_index (by rw [hw])
        rw [hw] at hm
        exact hm
      · intro h; simp at h
  case some =>
    rcases hwf : writeSeq IMax (resizeTo c.field (c.field.length + ndataOf b))
        (c.offset.getLastD 0) c.max_field (fs.take (ndataOf b)) with ⟨⟨f2, mf2⟩, ef⟩
    cases ef with
    | some e => intro h; simp at h
    | none =>
      dsimp only
      rcases hw : writeSeq IMax (resizeTo c.index (c.index.length + ndataOf b))
          (c.offset.getLastD 0) c.max_index (b.index.take (ndataOf b)) with ⟨⟨i2, mi2⟩, e⟩
      cases e with
      | some e => intro h; simp at h
      | none =>
        dsimp only
        split
        · intro _
          dsimp only
          have hm := @writeSeq_none_max IMax (b.index.take (ndataOf b))
            (resizeTo c.index (c.index.length + ndataOf b)) (c.offset.getLastD 0)
            c.max_index (by rw [hw])
          rw [hw] at hm
          exact hm
        · intro h; simp at h

theorem pushBlock_max_eq (IMax : Nat) (c : RowBlockContainer) (b : RowBlock) :
    (RowBlockContainer.pushBlock IMax c b).1.max_index =
      (RowBlockContainer.pushBlockMain IMax c b).1.max_index := by
  unfold RowBlockContainer.pushBlock
  cases hm : RowBlockContainer.pushBlockMain IMax c b with
  | mk c7 e =>
    cases e with
    | some e => rfl
    | none =>
      cases hpe : pushBlockExtras IMax c.label.length c7.extra b.extra with
      | mk ex2 e2 => rfl

theorem pushBlock_none_max {IMax : Nat} {c : RowBlockContainer} {b : RowBlock}
    (h : (RowBlockContainer.pushBlock IMax c b).2 = none) :
    (RowBlockContainer.pushBlock IMax c b).1.max_index =
      (b.index.take (ndataOf b)).foldl Nat.max c.max_index := by
  rw [pushBlock_max_eq]
  exact pushBlockMain_none_max (pushBlock_none_main h).1

theorem runOps_max {IMax : Nat} {ops : List Op} :
    ∀ {c : RowBlockContainer}, (runOps IMax c ops).2 = none →
      (runOps IMax c ops).1.max_index =
        (ops.flatMap opIndices).foldl Nat.max c.max_index := by
  induction ops with
  | nil => intro c _; simp [runOps]
  | cons op ops ih =>
    intro c h
    revert h
    simp only [runOps]
    cases op with
    | row r =>
      dsimp only
      rcases hp : RowBlockContainer.pushRow IMax c r with ⟨c2, e⟩
      cases e with
      | some e => intro h; simp at h
      | none =>
        intro h
        dsimp only at h ⊢
        rw [ih h]
        have hmax := @pushRow_none_max IMax c r (by rw [hp])
        rw [hp] at hmax
        dsimp only at hmax
        simp only [opIndices, List.flatMap_cons, List.foldl_append, hmax]
    | block b =>
      dsimp only
      rcases hp : RowBlockContainer.pushBlock IMax c b with ⟨c2, e⟩
      cases e with
      | some e => intro h; simp at h
      | none =>
        intro h
        dsimp only at h ⊢
        rw [ih h]
        have hmax := @pushBlock_none_max IMax c b (by rw [hp])
        rw [hp] at hmax
        dsimp only at hmax
        simp only [opIndices, List.flatMap_cons, List.foldl_append, hmax]

/-- C9: starting from a cleared container, after any successful sequence of
appends (single-row or block) `max_index` equals the maximum over every
primary index value supplied during the sequence (all of `row.index` for a
row push, the first `ndata` entries of `batch.index` for a block push), and
0 when no index was appended. -/
theorem claim9_max_index (IMax : Nat) (c0 : RowBlockContainer) (ops : List Op)
    (h : (runOps IMax (RowBlockContainer.clear c0) ops).2 = none) :
    (runOps IMax (RowBlockContainer.clear c0) ops).1.max_index =
      listMax (ops.flatMap opIndices) := by
  rw [runOps_max h]
  show (ops.flatMap opIndices).foldl Nat.max 0 = listMax (ops.flatMap opIndices)
  rw [foldl_max_eq_max_listMax]
  exact Nat.zero_max _

/-- C9 witness: a row push followed by a block push from a cleared fresh
container leaves `max_index = 9 = max {5, 9}`. -/
theorem claim9_witness :
    (runOps 255 (RowBlockContainer.clear freshContainer)
        [Op.row sampleRow, Op.block sampleBatch]).1.max_index =
      listMax ([Op.row sampleRow, Op.block sampleBatch].flatMap opIndices) :=
  claim9_max_index 255 freshContainer [Op.row sampleRow, Op.block sampleBatch]
    (by decide)

/-- C6 witness: pushing index 300 into a fresh container with an 8-bit
index bound fails with `OverflowError` and leaves both maxima at most 255. -/
theorem claim6_witness :
    (RowBlockContainer.pushRow 255 freshContainer overflowRow).2 = some PushError.overflow ∧
    (RowBlockContainer.pushRow 255 freshContainer overflowRow).1.max_index ≤
      Nat.max freshContainer.max_index 255 ∧
    (RowBlockContainer.pushRow 255 freshContainer overflowRow).1.max_field ≤
      Nat.max freshContainer.max_field 255 :=
  (claim6_overflow 255).1 freshContainer overflowRow
    (Or.inr ⟨300, by decide, by decide⟩)

/-! ### Codec lemmas -/

theorem length_encLE (w : Nat) : ∀ x, (encLE w x).length = w := by
  induction w with
  | zero => intro x; rfl
  | succ w ih => intro x; simp [encLE, ih]

theorem decLE_encLE (w : Nat) : ∀ x, decLE (encLE w x) = x % 256 ^ w := by
  induction w with
  | zero => intro x; simp [encLE, decLE, Nat.mod_one]
  | succ w ih =>
    intro x
    rw [show 256 ^ (w + 1) = 256 * 256 ^ w by rw [pow_succ, Nat.mul_comm]]
    simp only [encLE, decLE, ih, Nat.mod_mul]

theorem readN_exact (a rest : List Nat) : readN a.length (a ++ rest) = some (a, rest) := by
  unfold readN
  rw [if_pos (by simp)]
  rw [List.take_left, List.drop_left]

theorem length_encList (w : Nat) (xs : List Nat) :
    (encList w xs).length = xs.length * w := by
  induction xs with
  | nil => simp [encList]
  | cons x rest ih =>
    simp only [encList, List.foldr_cons] at ih ⊢
    simp [List.length_append, length_encLE, ih]
    ring

theorem encList_cons (w x : Nat) (xs : List Nat) :
    encList w (x :: xs) = encLE w x ++ encList w xs := rfl

theorem take_exact (a b : List Nat) (n : Nat) (h : a.length = n) : (a ++ b).take n = a := by
  subst h
  exact List.take_left a b

theorem drop_exact (a b : List Nat) (n : Nat) (h : a.length = n) : (a ++ b).drop n = b := by
  subst h
  exact List.drop_left a b

theorem decElems_encList (w : Nat) (xs : List Nat) :
    decElems w xs.length (encList w xs) = xs.map (fun x => x % 256 ^ w) := by
  induction xs with
  | nil => rfl
  | cons x rest ih =>
    simp only [List.length_cons, decElems, encList_cons, List.map_cons]
    rw [take_exact _ _ _ (length_encLE w x), drop_exact _ _ _ (length_encLE w x),
        decLE_encLE, ih]

theorem readN_front (a b : List Nat) (n : Nat) (h : a.length = n) :
    readN n (a ++ b) = some (a, b) := by
  subst h
  exact readN_exact a b

theorem readN_all (a : List Nat) (n : Nat) (h : a.length = n) :
    readN n a = some (a, []) := by
  have hx := readN_front a [] n h
  rwa [List.append_nil] at hx

theorem readVec_writeVec {w : Nat} {xs : List Nat} (rest : List Nat)
    (hlen : xs.length < 256 ^ 8) (hfit : ∀ x ∈ xs, x < 256 ^ w) :
    readVec w (writeVec w xs ++ rest) = some (xs, rest) := by
  unfold readVec writeVec
  rw [List.append_assoc]
  rw [readN_front _ _ _ (length_encLE 8 xs.length)]
  dsimp only
  rw [decLE_encLE, Nat.mod_eq_of_lt hlen]
  rw [readN_front _ _ _ (length_encList w xs)]
  dsimp only
  rw [decElems_encList]
  rw [show xs.map (fun x => x % 256 ^ w) = xs.map id from
    List.map_congr_left fun x hx => Nat.mod_eq_of_lt (hfit x hx)]
  rw [List.map_id]

/-- Loading a saved record into any container replaces exactly the seven
primary arrays and the two maxima with the saved values, returns `true`,
and leaves `label_width` and the extra channels of the target untouched. -/
theorem load_save (w : Nat) (c c0 : RowBlockContainer) (hfit : containerFits w c0) :
    load w c (save w c0) =
      ({ c with offset := c0.offset, label := c0.label, weight := c0.weight,
                qid := c0.qid, field := c0.field, index := c0.index,
                value := c0.value, max_field := c0.max_field,
                max_index := c0.max_index }, LoadResult.ok) := by
  obtain ⟨f1, f2, f3, f4, f5, f6, f7, f8, f9, l1, l2, l3, l4, l5, l6, l7⟩ := hfit
  unfold load save
  simp only [List.append_assoc]
  rw [readVec_writeVec _ l1 f1]
  dsimp only
  rw [readVec_writeVec _ l2 f2]
  dsimp only
  rw [readVec_writeVec _ l3 f3]
  dsimp only
  rw [readVec_writeVec _ l4 f4]
  dsimp only
  rw [readVec_writeVec _ l5 f5]
  dsimp only
  rw [readVec_writeVec _ l6 f6]
  dsimp only
  rw [readVec_writeVec _ l7 f7]
  dsimp only
  rw [readN_front _ _ _ (length_encLE w c0.max_field)]
  dsimp only
  rw [readN_all _ _ (length_encLE w c0.max_index)]
  dsimp only
  rw [decLE_encLE, decLE_encLE, Nat.mod_eq_of_lt f8, Nat.mod_eq_of_lt f9]

/-- C3 counterexample: saving a container with `label_width = 2` and
loading into a freshly constructed container succeeds, but the fresh
container's `label_width` stays at its default 1 — `label_width` is not
persisted, so the round trip does not reproduce it. -/
theorem claim3_counterexample :
    wideLabelContainer.label_width = 2 ∧
    (load 4 freshContainer (save 4 wideLabelContainer)).2 = LoadResult.ok ∧
    (load 4 freshContainer (save 4 wideLabelContainer)).1.label_width = 1 := by
  refine ⟨rfl, by decide, by decide⟩

/-- C3 (amended): `Save` then `Load` into a freshly constructed container
reproduces size, offset, label, weight, qid, field, index, value and both
maxima element-wise, with no extra-channel contents present; `label_width`
is not persisted and keeps the fresh default 1, equal to the original's
only when the original's is 1. -/
theorem claim3_roundtrip (w : Nat) (c : RowBlockContainer)
    (hfit : containerFits w c) :
    (load w freshContainer (save w c)).2 = LoadResult.ok ∧
    (load w freshContainer (save w c)).1.Size = c.Size ∧
    (load w freshContainer (save w c)).1.offset = c.offset ∧
    (load w freshContainer (save w c)).1.label = c.label ∧
    (load w freshContainer (save w c)).1.weight = c.weight ∧
    (load w freshContainer (save w c)).1.qid = c.qid ∧
    (load w freshContainer (save w c)).1.field = c.field ∧
    (load w freshContainer (save w c)).1.index = c.index ∧
    (load w freshContainer (save w c)).1.value = c.value ∧
    (load w freshContainer (save w c)).1.max_field = c.max_field ∧
    (load w freshContainer (save w c)).1.max_index = c.max_index ∧
    (load w freshContainer (save w c)).1.extra = [] ∧
    (load w freshContainer (save w c)).1.label_width = 1 := by
  rw [load_save w freshContainer c hfit]
  exact ⟨rfl, rfl, rfl, rfl, rfl, rfl, rfl, rfl, rfl, rfl, rfl, rfl, rfl⟩

/-- C3 witness: the round trip evaluated on a concrete one-row container. -/
theorem claim3_witness :
    (load 4 freshContainer (save 4 labeledOneRow)).1.offset = labeledOneRow.offset ∧
    (load 4 freshContainer (save 4 labeledOneRow)).1.value = labeledOneRow.value ∧
    (load 4 freshContainer (save 4 labeledOneRow)).1.extra = [] := by
  obtain ⟨-, -, h3, -, -, -, -, -, h9, -, -, h12, -⟩ :=
    claim3_roundtrip 4 labeledOneRow (by unfold containerFits fits; decide)
  exact ⟨h3, h9, h12⟩

/-- C7 counterexample: a successful `Load` into a container whose extra
channel holds one row leaves that extra channel — and its row — in place:
prior extra-channel contents are not replaced, and the extras do hold rows
afterwards. -/
theorem claim7_counterexample :
    (load 4 extrasContainer (save 4 freshContainer)).2 = LoadResult.ok ∧
    (load 4 extrasContainer (save 4 freshContainer)).1.extra.map
        UnitBlockContainer.Size = [1] := by
  refine ⟨by decide, by decide⟩

/-- C7 (amended): a successful `Load` of a well-formed record replaces the
seven primary arrays and both maxima with the decoded record and returns
`true`, but the extra channels (and `label_width`) of the prior container
are left untouched, so prior extra-channel contents persist; the decoded
record itself never carries extras since they are not serialized. -/
theorem claim7_load_replaces (w : Nat) (c c0 : RowBlockContainer)
    (hfit : containerFits w c0) :
    (load w c (save w c0)).2 = LoadResult.ok ∧
    (load w c (save w c0)).1.offset = c0.offset ∧
    (load w c (save w c0)).1.label = c0.label ∧
    (load w c (save w c0)).1.weight = c0.weight ∧
    (load w c (save w c0)).1.qid = c0.qid ∧
    (load w c (save w c0)).1.field = c0.field ∧
    (load w c (save w c0)).1.index = c0.index ∧
    (load w c (save w c0)).1.value = c0.value ∧
    (load w c (save w c0)).1.max_field = c0.max_field ∧
    (load w c (save w c0)).1.max_index = c0.max_index ∧
    (load w c (save w c0)).1.extra = c.extra ∧
    (load w c (save w c0)).1.label_width = c.label_width := by
  rw [load_save w c c0 hfit]
  exact ⟨rfl, rfl, rfl, rfl, rfl, rfl, rfl, rfl, rfl, rfl, rfl, rfl⟩

/-- C7 witness: loading a concrete saved record into `extrasContainer`
replaces the primary arrays while keeping the prior extra channel. -/
theorem claim7_witness :
    (load 4 extrasContainer (save 4 labeledOneRow)).1.index = labeledOneRow.index ∧
    (load 4 extrasContainer (save 4 labeledOneRow)).1.extra = extrasContainer.extra := by
  obtain ⟨-, -, -, -, -, -, h7, -, -, -, h11, -⟩ := claim7_load_replaces 4
    extrasContainer labeledOneRow (by unfold containerFits fits; decide)
  exact ⟨h7, h11⟩

/-- C8 (amended): `Load` returns `false` exactly when reading the first
array (`offset`) fails — that is, when the stream cannot supply the full
8-byte length prefix or the full payload the prefix announces; in that
case nothing is committed.  Failures in any later read are hard format
failures, not `false` returns. -/
theorem claim8_eof_iff (w : Nat) (c : RowBlockContainer) (s : List Nat) :
    ((load w c s).2 = LoadResult.eof ↔ readVec 8 s = none) ∧
    (readVec 8 s = none → (load w c s).1 = c) := by
  unfold load
  cases hr : readVec 8 s with
  | none => simp
  | some p =>
    rcases p with ⟨off, s1⟩
    dsimp only
    constructor
    · constructor
      · intro h
        exfalso
        revert h
        repeat' split
        all_goals intro h
        all_goals simp at h
      · intro h
        simp at h
    · intro h
      simp at h

/-- C8 counterexample: the first array's length prefix is fully available
on `shortStream` (so, in the claim's terms, the prefix has been read), yet
the truncated payload makes `Load` return `false` (`eof`) instead of
failing hard. -/
theorem claim8_counterexample :
    (readN 8 shortStream).isSome = true ∧
    shortStream.length = 10 ∧
    (load 4 freshContainer shortStream).2 = LoadResult.eof := by
  refine ⟨by decide, by decide, by decide⟩

/-! ### Lemmas for the row-by-row / block equivalence -/

theorem indexFlat_length (rows : List Row) : (indexFlat rows).length = totalLen rows := by
  induction rows with
  | nil => rfl
  | cons r rs ih =>
    simp only [indexFlat, List.foldr_cons, List.length_append, totalLen, List.map_cons,
      List.sum_cons] at ih ⊢
    omega

theorem labelFlat_length {lw : Nat} {rows : List Row}
    (h : ∀ r ∈ rows, r.label.length = lw) :
    (labelFlat rows).length = rows.length * lw := by
  induction rows with
  | nil => simp [labelFlat]
  | cons r rs ih =>
    simp only [labelFlat, List.foldr_cons, List.length_append, List.length_cons] at ih ⊢
    rw [h r (by simp), ih (fun r hr => h r (by simp [hr]))]
    ring

theorem indexFlat_le {IMax : Nat} {rows : List Row}
    (h : ∀ r ∈ rows, ∀ v ∈ r.index, v ≤ IMax) :
    ∀ v ∈ indexFlat rows, v ≤ IMax := by
  induction rows with
  | nil => simp [indexFlat]
  | cons r rs ih =>
    intro v hv
    simp only [indexFlat, List.foldr_cons, List.mem_append] at hv
    rcases hv with hv | hv
    · exact h r (by simp) v hv
    · exact ih (fun r hr => h r (by simp [hr])) v hv

theorem valueFlat_length {rows : List Row}
    (hsome : ∀ r ∈ rows, (r.value).isSome = true)
    (hlen : ∀ r ∈ rows, ∀ vs, r.value = some vs → vs.length = r.index.length) :
    (valueFlat rows).length = totalLen rows := by
  induction rows with
  | nil => rfl
  | cons r rs ih =>
    simp only [valueFlat, List.foldr_cons, List.length_append, totalLen, List.map_cons,
      List.sum_cons] at ih ⊢
    rcases Option.isSome_iff_exists.mp (hsome r (by simp)) with ⟨vs, hvs⟩
    rw [hvs]
    simp only [Option.getD_some]
    rw [hlen r (by simp) vs hvs,
        ih (fun r hr => hsome r (by simp [hr])) (fun r hr vs hv => hlen r (by simp [hr]) vs hv)]

theorem valsFlat_eq_valueFlat {rows : List Row}
    (hlen : ∀ r ∈ rows, ∀ vs, r.value = some vs → vs.length = r.index.length) :
    valsFlat rows = valueFlat rows := by
  induction rows with
  | nil => rfl
  | cons r rs ih =>
    simp only [valsFlat, valueFlat, List.foldr_cons] at ih ⊢
    have hhead : valOf r = (r.value).getD [] := by
      unfold valOf
      cases hv : r.value with
      | none => rfl
      | some vs => simp [hlen r (by simp) vs hv]
    rw [hhead, ih (fun r hr vs hv => hlen r (by simp [hr]) vs hv)]

theorem valsFlat_none {rows : List Row} (h : ∀ r ∈ rows, r.value = none) :
    valsFlat rows = [] := by
  induction rows with
  | nil => rfl
  | cons r rs ih =>
    simp only [valsFlat, List.foldr_cons] at ih ⊢
    rw [show valOf r = [] by unfold valOf; rw [h r (by simp)],
        ih (fun r hr => h r (by simp [hr]))]
    rfl

theorem sumsFrom_getD (rows : List Row) : ∀ base,
    (base :: sumsFrom base rows).getD rows.length 0 = base + totalLen rows := by
  induction rows with
  | nil => intro base; simp [sumsFrom, totalLen]
  | cons r rs ih =>
    intro base
    simp only [sumsFrom, List.length_cons, List.getD_cons_succ, totalLen, List.map_cons,
      List.sum_cons]
    have hx := ih (base + r.index.length)
    simp only [totalLen] at hx
    rw [hx]
    omega

theorem sumsFrom_range (rows : List Row) : ∀ base,
    (List.range rows.length).map
      (fun i => (base :: sumsFrom base rows).getD (i + 1) 0) = sumsFrom base rows := by
  induction rows with
  | nil => intro base; rfl
  | cons r rs ih =>
    intro base
    rw [List.length_cons, List.range_succ_eq_map, List.map_cons, List.map_map]
    simp only [sumsFrom]
    congr 1
    refine (List.map_congr_left ?_).trans (ih (base + r.index.length))
    intro i hi
    simp only [Function.comp_apply, Nat.succ_eq_add_one, sumsFrom]
    rw [show i + 1 + 1 = (i + 1) + 1 from rfl, List.getD_cons_succ]

theorem resizeTo_nil (n : Nat) : resizeTo [] n = List.replicate n 0 := by
  simp [resizeTo]

theorem overwriteAt_zero_full {l xs : List Nat} (h : xs.length = l.length) :
    overwriteAt l 0 xs = xs := by
  unfold overwriteAt
  rw [List.take_zero, List.nil_append, Nat.zero_add,
      List.drop_eq_nil_of_le (le_of_eq h.symm), List.append_nil]

theorem pushRow_wf_eq {IMax lw : Nat} {r : Row} (hr : wfRow lw IMax r)
    (c : RowBlockContainer) :
    RowBlockContainer.pushRow IMax c r =
      ({ c with
          offset := c.offset ++ [c.index.length + r.index.length],
          label := c.label ++ r.label,
          weight := c.weight ++ [r.weight],
          qid := c.qid ++ [r.qid],
          index := c.index ++ r.index,
          value := c.value ++ valOf r,
          max_index := r.index.foldl Nat.max c.max_index }, none) := by
  obtain ⟨hlw, hlab, hidx, hf, hex, -⟩ := hr
  unfold RowBlockContainer.pushRow
  try dsimp only
  rw [hf]
  try dsimp only
  rw [pushList_ok hidx]
  try dsimp only
  rw [hex]
  simp only [pushRowExtras]
  rw [show r.label.take r.label_width = r.label from List.take_of_length_le (by omega)]
  simp only [valOf, List.length_append]

theorem runRows_wf {IMax lw : Nat} {rows : List Row}
    (hwf : ∀ r ∈ rows, wfRow lw IMax r) :
    ∀ c : RowBlockContainer, runRows IMax c rows =
      ({ c with
          offset := c.offset ++ sumsFrom c.index.length rows,
          label := c.label ++ labelFlat rows,
          weight := c.weight ++ rows.map (fun r => r.weight),
          qid := c.qid ++ rows.map (fun r => r.qid),
          index := c.index ++ indexFlat rows,
          value := c.value ++ valsFlat rows,
          max_index := (indexFlat rows).foldl Nat.max c.max_index }, none) := by
  induction rows with
  | nil =>
    intro c
    simp [runRows, sumsFrom, labelFlat, indexFlat, valsFlat]
  | cons r rs ih =>
    intro c
    simp only [runRows]
    rw [pushRow_wf_eq (hwf r (by simp)) c]
    dsimp only
    rw [ih (fun r hr => hwf r (by simp [hr]))]
    simp only [Prod.mk.injEq, RowBlockContainer.mk.injEq, and_true, true_and,
      List.append_assoc, List.singleton_append, List.length_append, List.map_cons,
      List.foldl_append, labelFlat, indexFlat, valsFlat, List.foldr_cons, sumsFrom]

theorem sumsFrom_length (rows : List Row) : ∀ base, (sumsFrom base rows).length = rows.length := by
  induction rows with
  | nil => intro base; rfl
  | cons r rs ih => intro base; simp [sumsFrom, ih]

theorem overwriteAt_one (a : Nat) (l xs : List Nat) :
    overwriteAt (a :: l) 1 xs = a :: overwriteAt l 0 xs := overwriteAt_cons a l 0 xs

theorem pushBlockMain_assemble (IMax lw : Nat) (rows : List Row)
    (hwf : ∀ r ∈ rows, wfRow lw IMax r) :
    RowBlockContainer.pushBlockMain IMax { freshContainer with label_width := lw }
        (assembleBlock rows) =
      ({ offset := 0 :: sumsFrom 0 rows,
         label_width := lw,
         label := labelFlat rows,
         weight := rows.map (fun r => r.weight),
         qid := rows.map (fun r => r.qid),
         field := [],
         index := indexFlat rows,
         value := if rows.all (fun r => (r.value).isSome) then valueFlat rows else [],
         max_field := 0,
         max_index := (indexFlat rows).foldl Nat.max 0,
         extra := [] }, none) := by
  have hidx : ∀ v ∈ indexFlat rows, v ≤ IMax :=
    indexFlat_le (fun r hr => ((hwf r hr).2.2.1))
  have hlabl : (labelFlat rows).length = rows.length * lw :=
    labelFlat_length (fun r hr => (hwf r hr).2.1)
  have hnd : ndataOf (assembleBlock rows) = totalLen rows := by
    simp only [ndataOf, assembleBlock]
    rw [sumsFrom_getD rows 0]
    simp
  unfold RowBlockContainer.pushBlockMain
  try dsimp only
  rw [hnd]
  simp only [assembleBlock, freshContainer]
  try dsimp only
  rw [List.take_of_length_le (le_of_eq hlabl)]
  rw [List.take_of_length_le
    (show (rows.map (fun r => r.weight)).length ≤ rows.length by simp)]
  rw [List.take_of_length_le
    (show (rows.map (fun r => r.qid)).length ≤ rows.length by simp)]
  rw [List.take_of_length_le (le_of_eq (indexFlat_length rows))]
  rw [show ([0] : List Nat).getLastD 0 = 0 from rfl]
  simp only [List.length_nil, List.length_cons, Nat.zero_add]
  rw [writeSeq_ok hidx (resizeTo [] (totalLen rows)) 0 0
    (by rw [length_resizeTo, indexFlat_length]; omega)]
  try dsimp only
  rw [resizeTo_nil,
    overwriteAt_zero_full (by rw [indexFlat_length, List.length_replicate])]
  rw [if_pos (by omega : (0 : Nat) < 1)]
  have hres0 : resizeTo [0] (1 + rows.length) = 0 :: List.replicate rows.length 0 := by
    unfold resizeTo
    rw [List.take_of_length_le (by simp)]
    rw [show 1 + rows.length - ([0] : List Nat).length = rows.length by simp]
    rfl
  rw [hres0, show ([0] : List Nat).getD 0 0 = 0 from rfl, overwriteAt_one]
  rw [show ((List.range rows.length).map fun i =>
        (0 + (0 :: sumsFrom 0 rows).getD (i + 1) 0) - (0 :: sumsFrom 0 rows).getD 0 0) =
      (List.range rows.length).map
        (fun i => (0 :: sumsFrom 0 rows).getD (i + 1) 0) from
    List.map_congr_left (fun i _ => by simp)]
  rw [sumsFrom_range rows 0]
  rw [overwriteAt_zero_full (by simp [sumsFrom_length])]
  by_cases hsome : rows.all (fun r => (r.value).isSome) = true
  · rw [if_pos hsome]
    try dsimp only
    rw [List.take_of_length_le (le_of_eq (valueFlat_length
      (fun r hr => List.all_eq_true.mp hsome r hr)
      (fun r hr vs hv => by
        have hm := (hwf r hr).2.2.2.2.2
        rw [hv] at hm
        exact hm)))]
    simp
    rw [if_pos (List.all_eq_true.mp hsome)]
  · rw [if_neg hsome]
    try dsimp only
    simp
    intro h
    exact absurd (List.all_eq_true.mpr h) hsome

theorem valueFlat_none {rows : List Row} (h : ∀ r ∈ rows, r.value = none) :
    valueFlat rows = [] := by
  induction rows with
  | nil => rfl
  | cons r rs ih =>
    simp only [valueFlat, List.foldr_cons] at ih ⊢
    rw [h r (by simp), ih (fun r hr => h r (by simp [hr]))]
    rfl

theorem pushBlock_assemble (IMax lw : Nat) (rows : List Row)
    (hwf : ∀ r ∈ rows, wfRow lw IMax r) :
    RowBlockContainer.pushBlock IMax { freshContainer with label_width := lw }
        (assembleBlock rows) =
      ({ offset := 0 :: sumsFrom 0 rows,
         label_width := lw,
         label := labelFlat rows,
         weight := rows.map (fun r => r.weight),
         qid := rows.map (fun r => r.qid),
         field := [],
         index := indexFlat rows,
         value := if rows.all (fun r => (r.value).isSome) then valueFlat rows else [],
         max_field := 0,
         max_index := (indexFlat rows).foldl Nat.max 0,
         extra := [] }, none) := by
  unfold RowBlockContainer.pushBlock
  rw [pushBlockMain_assemble IMax lw rows hwf]
  try dsimp only
  simp only [assembleBlock]
  try dsimp only
  simp [pushBlockExtras]

/-- C4: pushing well-formed rows one at a time into a cleared container is
equivalent to assembling them into one block (same parallel arrays, same
row count) and pushing it once with the block-level push into an
identically configured cleared container: both succeed and produce the
same `offset`, `index`, `value` and `label` arrays.  Rows are required to
be uniform in value presence (all with values or none), since a mixed
sequence has no equivalent single block. -/
theorem claim4_equivalence (IMax lw : Nat) (rows : List Row)
    (hwf : ∀ r ∈ rows, wfRow lw IMax r)
    (huniform : (∀ r ∈ rows, (r.value).isSome = true) ∨ (∀ r ∈ rows, r.value = none)) :
    (runRows IMax { freshContainer with label_width := lw } rows).2 = none ∧
    (RowBlockContainer.pushBlock IMax { freshContainer with label_width := lw }
      (assembleBlock rows)).2 = none ∧
    (runRows IMax { freshContainer with label_width := lw } rows).1.offset =
      (RowBlockContainer.pushBlock IMax { freshContainer with label_width := lw }
        (assembleBlock rows)).1.offset ∧
    (runRows IMax { freshContainer with label_width := lw } rows).1.index =
      (RowBlockContainer.pushBlock IMax { freshContainer with label_width := lw }
        (assembleBlock rows)).1.index ∧
    (runRows IMax { freshContainer with label_width := lw } rows).1.value =
      (RowBlockContainer.pushBlock IMax { freshContainer with label_width := lw }
        (assembleBlock rows)).1.value ∧
    (runRows IMax { freshContainer with label_width := lw } rows).1.label =
      (RowBlockContainer.pushBlock IMax { freshContainer with label_width := lw }
        (assembleBlock rows)).1.label := by
  rw [runRows_wf hwf { freshContainer with label_width := lw },
      pushBlock_assemble IMax lw rows hwf]
  try dsimp only
  simp only [freshContainer]
  try dsimp only
  refine ⟨by trivial, by trivial, by simp [sumsFrom], by simp, ?_, by simp⟩
  simp only [List.nil_append]
  rcases huniform with hall | hnone
  · rw [if_pos (List.all_eq_true.mpr hall)]
    exact valsFlat_eq_valueFlat (fun r hr vs hv => by
      have hm := (hwf r hr).2.2.2.2.2
      rw [hv] at hm
      exact hm)
  · rw [valsFlat_none hnone]
    by_cases hc : rows.all (fun r => (r.value).isSome) = true
    · rw [if_pos hc, valueFlat_none hnone]
    · rw [if_neg hc]

/-- C4 witness: the equivalence evaluated on a concrete two-row sequence. -/
theorem claim4_witness :
    (runRows 255 { freshContainer with label_width := 1 } [sampleRow, sampleRowB]).2 = none ∧
    (RowBlockContainer.pushBlock 255 { freshContainer with label_width := 1 }
      (assembleBlock [sampleRow, sampleRowB])).2 = none ∧
    (runRows 255 { freshContainer with label_width := 1 } [sampleRow, sampleRowB]).1.offset =
      (RowBlockContainer.pushBlock 255 { freshContainer with label_width := 1 }
        (assembleBlock [sampleRow, sampleRowB])).1.offset ∧
    (runRows 255 { freshContainer with label_width := 1 } [sampleRow, sampleRowB]).1.index =
      (RowBlockContainer.pushBlock 255 { freshContainer with label_width := 1 }
        (assembleBlock [sampleRow, sampleRowB])).1.index ∧
    (runRows 255 { freshContainer with label_width := 1 } [sampleRow, sampleRowB]).1.value =
      (RowBlockContainer.pushBlock 255 { freshContainer with label_width := 1 }
        (assembleBlock [sampleRow, sampleRowB])).1.value ∧
    (runRows 255 { freshContainer with label_width := 1 } [sampleRow, sampleRowB]).1.label =
      (RowBlockContainer.pushBlock 255 { freshContainer with label_width := 1 }
        (assembleBlock [sampleRow, sampleRowB])).1.label :=
  claim4_equivalence 255 1 [sampleRow, sampleRowB]
    (by
      intro r hr
      rcases List.mem_cons.mp hr with rfl | hr
      · exact ⟨rfl, rfl, by decide, rfl, rfl, rfl⟩
      rcases List.mem_cons.mp hr with rfl | hr
      · exact ⟨rfl, rfl, by decide, rfl, rfl, rfl⟩
      · simp at hr)
    (Or.inl (by decide))

/-- C8 witness: on the empty stream the first read fails, so `Load`
returns `false` and commits nothing. -/
theorem claim8_witness :
    (load 4 freshContainer []).1 = freshContainer ∧
    (load 4 freshContainer []).2 = LoadResult.eof :=
  ⟨(claim8_eof_iff 4 freshContainer []).2 (by decide),
   (claim8_eof_iff 4 freshContainer []).1.mpr (by decide)⟩

end RowBlockModel
